import Mathlib

/-!
# Verification of the Website Blog Editor document pipeline

This file gives a shallow embedding, over `List Char` strings and rational
page coordinates, of the core string-processing components of the blog
editor repository: the Markdown post-formatter (`formatMarkdown` in
`pdf-converter.js`), the PDF text-block reconstructor (`extractTextBlocks`,
`processTextBlock`), the page assembler (`convertPdfToMarkdown`), the
transform-matrix walk of the image extractor (`extractImagesWithPositions`,
`multiplyMatrices`), the HTML-to-Markdown list normalizer
(`mergeConsecutiveLists`, `processListItems` in `export.js`), and the image
collapse/restore codec (`collapseImages`, `restoreImages`, `getContent` in
`editor.js`).

JavaScript strings are modeled as `List Char`; JavaScript numbers that only
ever hold exact page coordinates and font sizes are modeled as `ℚ`; the
random placeholder-identifier generator is modeled as an explicit supply of
identifiers threaded through the computation.  JavaScript regular-expression
replacement (`String.replace` with the `g` flag) is modeled by left-to-right
scanning functions that mirror the exact matching behaviour of the concrete
patterns appearing in the source, including greedy character classes and
resumption after each match.
-/

/-! ## Basic character classes and string helpers -/

/-- The characters treated as whitespace by JavaScript `trim` that occur in
this development (space, tab, newline, carriage return, vertical tab, form
feed). -/
def isJsWS (c : Char) : Bool :=
  c = ' ' || c = '\t' || c = '\n' || c = '\r' || c = '\x0b' || c = '\x0c'

/-- Horizontal whitespace, the character class `[ \t]` from the source. -/
def isHT (c : Char) : Bool :=
  c = ' ' || c = '\t'

/-- The JavaScript regex class `\w` = `[A-Za-z0-9_]`. -/
def isWordChar (c : Char) : Bool :=
  c.isAlpha || c.isDigit || c = '_'

/-- `String.prototype.trim`: drop leading and trailing whitespace. -/
def jsTrim (l : List Char) : List Char :=
  ((l.dropWhile isJsWS).reverse.dropWhile isJsWS).reverse

/-- `String.prototype.split('\n')` on a character list: every `'\n'` is a
separator, and empty segments are kept. -/
def splitNL : List Char → List (List Char)
  | [] => [[]]
  | c :: rest =>
    if c = '\n' then [] :: splitNL rest
    else
      match splitNL rest with
      | l :: ls => (c :: l) :: ls
      | [] => [[c]]

/-- `Array.prototype.join('\n')`. -/
def joinNL : List (List Char) → List Char
  | [] => []
  | [l] => l
  | l :: ls => l ++ '\n' :: joinNL ls

/-! ## The Markdown post-formatter (`formatMarkdown`, pdf-converter.js 530-543)

`formatMarkdown` applies, in order:
`.replace(/\n{3,}/g, '\n\n')`, `.replace(/(\w)-\n(\w)/g, '$1$2')`,
`.replace(/[ \t]+/g, ' ')`, then `.split('\n').map(line => line.trim())
.join('\n').trim()`.  Each regex pass is embedded as a left-to-right scan
that consumes every match and resumes after it, exactly as the JavaScript
global replace does. -/

/-- State machine for `.replace(/\n{3,}/g, '\n\n')`: `pending` counts the
newlines of the current run already emitted (capped at 2); once two newlines
of a run are out, further newlines of the same run are dropped, so a maximal
run of three or more newlines is replaced by exactly two. -/
def collapseNLAux : Nat → List Char → List Char
  | _, [] => []
  | pending, c :: rest =>
    if c = '\n' then
      if 2 ≤ pending then collapseNLAux pending rest
      else '\n' :: collapseNLAux (pending + 1) rest
    else c :: collapseNLAux 0 rest

/-- `.replace(/\n{3,}/g, '\n\n')`. -/
def collapseNewlines (l : List Char) : List Char :=
  collapseNLAux 0 l

/-- Fuel-indexed scan for `.replace(/(\w)-\n(\w)/g, '$1$2')`: a word
character, a hyphen, a newline and a word character become the two word
characters; scanning resumes after the second word character, as the
JavaScript global replace does.  The fuel only bounds the recursion depth;
with fuel at least the length of the list the scan is complete. -/
def hyphenJoinF : Nat → List Char → List Char
  | 0, l => l
  | _ + 1, [] => []
  | n + 1, a :: rest =>
    match rest with
    | b :: c :: d :: rest2 =>
      if isWordChar a && b = '-' && c = '\n' && isWordChar d then
        a :: d :: hyphenJoinF n rest2
      else a :: hyphenJoinF n rest
    | _ => a :: hyphenJoinF n rest

/-- `.replace(/(\w)-\n(\w)/g, '$1$2')`. -/
def hyphenJoin (l : List Char) : List Char :=
  hyphenJoinF l.length l

/-- State machine for `.replace(/[ \t]+/g, ' ')`: `inRun` records whether the
previous character was part of a horizontal-whitespace run whose single
replacement space was already emitted. -/
def collapseSpacesAux : Bool → List Char → List Char
  | _, [] => []
  | inRun, c :: rest =>
    if isHT c then
      if inRun then collapseSpacesAux true rest
      else ' ' :: collapseSpacesAux true rest
    else c :: collapseSpacesAux false rest

/-- `.replace(/[ \t]+/g, ' ')`: a maximal run of spaces and tabs becomes a
single space. -/
def collapseSpaces (l : List Char) : List Char :=
  collapseSpacesAux false l

/-- `formatMarkdown` (pdf-converter.js 530-543). -/
def formatMarkdown (text : List Char) : List Char :=
  jsTrim (joinNL ((splitNL (collapseSpaces (hyphenJoin (collapseNewlines text)))).map jsTrim))

/-! ### Formatted shape

The syntactic conditions under which each pass of `formatMarkdown` is the
identity.  A string satisfying all of them is fully formatted and
`formatMarkdown` leaves it unchanged. -/

/-- No three consecutive newlines anywhere (the pattern `\n{3,}` is absent). -/
def noTripleNL : List Char → Bool
  | a :: b :: c :: rest =>
    !(a = '\n' && b = '\n' && c = '\n') && noTripleNL (b :: c :: rest)
  | _ => true

/-- The pattern `(\w)-\n(\w)` is absent. -/
def noHyphenBreak : List Char → Bool
  | a :: b :: c :: d :: rest =>
    !(isWordChar a && b = '-' && c = '\n' && isWordChar d) &&
      noHyphenBreak (b :: c :: d :: rest)
  | _ => true

/-- No tab characters. -/
def noTab (l : List Char) : Bool :=
  l.all (fun c => !(c = '\t'))

/-- No two adjacent horizontal-whitespace characters. -/
def singleHT : List Char → Bool
  | a :: b :: rest => !(isHT a && isHT b) && singleHT (b :: rest)
  | _ => true

/-- A string neither starts nor ends with a whitespace character, so that
JavaScript `trim` leaves it unchanged. -/
def trimmedEnds (l : List Char) : Bool :=
  (match l.head? with
   | some c => !isJsWS c
   | none => true) &&
  (match l.getLast? with
   | some c => !isJsWS c
   | none => true)

/-- Every `'\n'`-delimited line of the string is already trimmed. -/
def linesTrimmed (l : List Char) : Bool :=
  (splitNL l).all trimmedEnds

/-- A string is in formatted shape: no 3+ newline runs, no hyphen-break
junctures, no tabs, no repeated horizontal whitespace, all lines trimmed,
and the whole string trimmed. -/
def isFormatted (l : List Char) : Bool :=
  noTripleNL l && noHyphenBreak l && noTab l && singleHT l &&
    linesTrimmed l && trimmedEnds l

/-! ## Stable sorting

`Array.prototype.sort` with a numeric comparator is required by the
ECMAScript specification to be a stable sort; for a total preorder the
stable-sorted permutation is unique, so any stable sort is a faithful
model.  We use stable insertion sort: each element is inserted after all
elements already placed whose key does not compare strictly behind it. -/

/-- Insert `x` into `acc` keeping ascending key order; `x` goes after equal
keys (stability). -/
def insertAscBy {α : Type} (key : α → ℚ) (x : α) : List α → List α
  | [] => [x]
  | y :: rest => if key x < key y then x :: y :: rest else y :: insertAscBy key x rest

/-- Stable ascending sort by `key`, modeling `arr.sort((a, b) => key(a) - key(b))`. -/
def stableSortAscBy {α : Type} (key : α → ℚ) (l : List α) : List α :=
  l.foldl (fun acc x => insertAscBy key x acc) []

/-- Insert `x` into `acc` keeping descending key order; `x` goes after equal
keys (stability). -/
def insertDescBy {α : Type} (key : α → ℚ) (x : α) : List α → List α
  | [] => [x]
  | y :: rest => if key y < key x then x :: y :: rest else y :: insertDescBy key x rest

/-- Stable descending sort by `key`, modeling `arr.sort((a, b) => key(b) - key(a))`. -/
def stableSortDescBy {α : Type} (key : α → ℚ) (l : List α) : List α :=
  l.foldl (fun acc x => insertDescBy key x acc) []

/-! ## The transform-matrix walk (`extractImagesWithPositions`, pdf-converter.js 565-597)

The scan over the page operator list that tracks the current transform
matrix and records each painted image reference with its vertical position.
Only the synchronous scanning part is embedded; the asynchronous pixel
resolution that follows it is outside the scope of the claims. -/

/-- A 2×3 affine matrix `[a, b, c, d, e, f]` as used by pdf.js. -/
structure Mat2x3 where
  a : ℚ
  b : ℚ
  c : ℚ
  d : ℚ
  e : ℚ
  f : ℚ
deriving DecidableEq

/-- `multiplyMatrices` (pdf-converter.js 707-716), composing `a` and `b`
component by component exactly as the source does. -/
def multiplyMatrices (a b : Mat2x3) : Mat2x3 :=
  { a := a.a * b.a + a.c * b.b
    b := a.b * b.a + a.d * b.b
    c := a.a * b.c + a.c * b.d
    d := a.b * b.c + a.d * b.d
    e := a.a * b.e + a.c * b.f + a.e
    f := a.b * b.e + a.d * b.f + a.f }

/-- The identity matrix `[1, 0, 0, 1, 0, 0]` seeding the stack. -/
def identityMat : Mat2x3 :=
  ⟨1, 0, 0, 1, 0, 0⟩

/-- The drawing operators the scan distinguishes (pdf-converter.js 571-593). -/
inductive PdfOp : Type
  | save : PdfOp
  | restore : PdfOp
  | transform : Mat2x3 → PdfOp
  | paintImageXObject : List Char → PdfOp
  | paintJpegXObject : List Char → PdfOp
deriving DecidableEq

/-- State of the operator-list scan: the transform stack (top of the
JavaScript array, i.e. its last element, is modeled as the list head) and
the image references recorded so far, in recording order. -/
structure CtmScanState where
  ctmStack : List Mat2x3
  imageOps : List (List Char × ℚ)
deriving DecidableEq

/-- One iteration of the operator loop (pdf-converter.js 567-594): `save`
pushes a copy of the top, `restore` pops only when more than one entry
remains, `transform` composes into the top, and the two image-painting
opcodes record the reference name with the top matrix component `f`
(translation Y), deduplicating by name (first occurrence wins). -/
def ctmScanStep (st : CtmScanState) (op : PdfOp) : CtmScanState :=
  match op with
  | .save =>
    match st.ctmStack with
    | top :: rest => { st with ctmStack := top :: top :: rest }
    | [] => st
  | .restore =>
    if 1 < st.ctmStack.length then { st with ctmStack := st.ctmStack.tail } else st
  | .transform m =>
    match st.ctmStack with
    | top :: rest => { st with ctmStack := multiplyMatrices top m :: rest }
    | [] => st
  | .paintImageXObject name =>
    let yPos := (match st.ctmStack with | top :: _ => top.f | [] => 0)
    if name ≠ [] ∧ ¬ st.imageOps.any (fun io => io.1 = name) then
      { st with imageOps := st.imageOps ++ [(name, yPos)] }
    else st
  | .paintJpegXObject name =>
    let yPos := (match st.ctmStack with | top :: _ => top.f | [] => 0)
    if name ≠ [] ∧ ¬ st.imageOps.any (fun io => io.1 = name) then
      { st with imageOps := st.imageOps ++ [(name, yPos)] }
    else st

/-- The full scan, starting from the stack `[identity]` and no recorded
images. -/
def ctmScan (ops : List PdfOp) : CtmScanState :=
  ops.foldl ctmScanStep { ctmStack := [identityMat], imageOps := [] }

/-- Recorded image references sorted by descending Y
(`imageOps.sort((a, b) => b.y - a.y)`, pdf-converter.js 597). -/
def extractImagePositions (ops : List PdfOp) : List (List Char × ℚ) :=
  stableSortDescBy (fun io => io.2) (ctmScan ops).imageOps

/-! ## Page assembly (`convertPdfToMarkdown`, pdf-converter.js 163-211) -/

/-- A page content item: reconstructed text or an extracted image, with its
vertical position and rendered fragment. -/
inductive ContentItem : Type
  | text : ℚ → List Char → ContentItem
  | image : ℚ → List Char → ContentItem
deriving DecidableEq

/-- The `y` field used for ordering. -/
def ContentItem.y : ContentItem → ℚ
  | .text y _ => y
  | .image y _ => y

/-- The rendered Markdown fragment. -/
def ContentItem.content : ContentItem → List Char
  | .text _ s => s
  | .image _ s => s

/-- `allContent.sort((a, b) => b.y - a.y)` (pdf-converter.js 192). -/
def sortContent (l : List ContentItem) : List ContentItem :=
  stableSortDescBy ContentItem.y l

/-- The per-page markdown accumulation (pdf-converter.js 195-200): each item
with truthy, non-whitespace content contributes `content + "\n\n"`. -/
def pageMarkdown (allContent : List ContentItem) : List Char :=
  allContent.foldl
    (fun acc item =>
      if item.content ≠ [] ∧ jsTrim item.content ≠ [] then
        acc ++ item.content ++ ['\n', '\n']
      else acc)
    []

/-- The whole-document assembly (pdf-converter.js 145-208): pages are
processed in order, each page appends its sorted content, no page separator
is inserted, and the result is `formatMarkdown(markdown.trim())`. -/
def docMarkdown (pages : List (List ContentItem)) : List Char :=
  formatMarkdown (jsTrim (pages.foldl (fun md page => md ++ pageMarkdown (sortContent page)) []))

/-! ## The PDF text-block reconstructor
(`extractTextBlocks` pdf-converter.js 220-268, `processTextBlock` 275-414)

Page coordinates and font sizes are rationals.  `Math.abs`, `Math.max` and
`Math.round` are embedded directly (`Math.round` rounds half toward
positive infinity in JavaScript). -/

/-- `Math.abs`. -/
def jsAbs (q : ℚ) : ℚ :=
  if q < 0 then -q else q

/-- `Math.max`. -/
def jsMax (a b : ℚ) : ℚ :=
  if a < b then b else a

/-- `Math.round`: half rounds toward positive infinity. -/
def jsRound (q : ℚ) : ℚ :=
  (((q + 0.5).floor : ℤ) : ℚ)

/-- A glyph-run item as pushed into a block (pdf-converter.js 246-252):
string, X, Y, rounded font size, font name. -/
structure RunItem where
  str : List Char
  x : ℚ
  y : ℚ
  fontSize : ℚ
  fontName : List Char
deriving DecidableEq

/-- A raw text item as supplied by the PDF collaborator: string, the
transform components `[4]` (X) and `[5]` (Y), height, font name. -/
structure PdfTextItem where
  str : List Char
  tx : ℚ
  ty : ℚ
  height : ℚ
  fontName : List Char
deriving DecidableEq

/-- A reconstructed text block: representative Y (the block top `maxY`) and
the rendered text. -/
structure TextBlock where
  y : ℚ
  text : List Char
deriving DecidableEq

/-- List-prefix test used by the substring search. -/
def startsWithL : List Char → List Char → Bool
  | [], _ => true
  | _ :: _, [] => false
  | p :: ps, c :: cs => p = c && startsWithL ps cs

/-- `String.prototype.includes`. -/
def containsSub (pat : List Char) : List Char → Bool
  | [] => startsWithL pat []
  | c :: rest => startsWithL pat (c :: rest) || containsSub pat rest

/-- `String.prototype.toLowerCase` (ASCII, as all font names here are). -/
def toLowerStr (l : List Char) : List Char :=
  l.map Char.toLower

/-- The per-font-name bold test from pdf-converter.js 340:
`fontName && (fontName.toLowerCase().includes('bold') || fontName.includes('Bold'))`. -/
def fontNameIsBold (fn : List Char) : Bool :=
  fn ≠ [] && (containsSub "bold".data (toLowerStr fn) || containsSub "Bold".data fn)

/-! ### The typographic repair passes (pdf-converter.js 326-336)

Each pass is a global replace of a two- or three-character pattern that
re-inserts a space between the matched characters; scanning resumes after
the match.  They are embedded with the same fuel-indexed scheme as
`hyphenJoin`. -/

/-- Fuel-indexed scan for a two-character pattern `(p)(q)` replaced by
`$1 $2`. -/
def fixPairF (p q : Char → Bool) : Nat → List Char → List Char
  | 0, l => l
  | _ + 1, [] => []
  | n + 1, a :: rest =>
    match rest with
    | b :: rest2 =>
      if p a && q b then a :: ' ' :: b :: fixPairF p q n rest2
      else a :: fixPairF p q n rest
    | [] => [a]

/-- Global replace of `(p)(q)` by `$1 $2`. -/
def fixPair (p q : Char → Bool) (l : List Char) : List Char :=
  fixPairF p q l.length l

/-- Fuel-indexed scan for a three-character pattern `(p)(q r)` replaced by
`$1 $2`. -/
def fixTripleF (p q r : Char → Bool) : Nat → List Char → List Char
  | 0, l => l
  | _ + 1, [] => []
  | n + 1, a :: rest =>
    match rest with
    | b :: c :: rest2 =>
      if p a && q b && r c then a :: ' ' :: b :: c :: fixTripleF p q r n rest2
      else a :: fixTripleF p q r n rest
    | _ => a :: fixTripleF p q r n rest

/-- Global replace of `(p)(q r)` by `$1 $2`. -/
def fixTriple (p q r : Char → Bool) (l : List Char) : List Char :=
  fixTripleF p q r l.length l

/-- The ordered sequence of repair substitutions (pdf-converter.js 326-336):
`([a-z])([A-Z])`, `\.([A-Za-z])`, `:([A-Za-z])`, `,([A-Za-z])`,
`;([A-Za-z])`, `(\d)([A-Z])`, `([a-z])(\d)`, `([a-z])([A-Z][a-z])`,
`\)([A-Z])`, `\]([A-Z])`, each replaced by the matched characters with a
space inserted after the first. -/
def fixSpacing (t0 : List Char) : List Char :=
  let t1 := fixPair Char.isLower Char.isUpper t0
  let t2 := fixPair (fun c => c = '.') Char.isAlpha t1
  let t3 := fixPair (fun c => c = ':') Char.isAlpha t2
  let t4 := fixPair (fun c => c = ',') Char.isAlpha t3
  let t5 := fixPair (fun c => c = ';') Char.isAlpha t4
  let t6 := fixPair Char.isDigit Char.isUpper t5
  let t7 := fixPair Char.isLower Char.isDigit t6
  let t8 := fixTriple Char.isLower Char.isUpper Char.isLower t7
  let t9 := fixPair (fun c => c = ')') Char.isUpper t8
  fixPair (fun c => c = ']') Char.isUpper t9

/-! ### Line classification helpers (pdf-converter.js 352-410)

The anchored regular expressions of the classifier chain.  `\s` is modeled
by `isJsWS` (all inputs here are ASCII), and `(.*)` — which does not match
newlines — by `takeWhile (· ≠ '\n')`. -/

/-- Group 2 of an anchored match: `(.*)` from the given suffix. -/
def dotStar (l : List Char) : List Char :=
  l.takeWhile (fun c => !(c = '\n'))

/-- `/^(\d+)[.)]\s+(.*)/` rewritten to `match[1] + '. ' + match[2]` when the
test `/^\d+[.)]\s+/` passes and `match[2]` is nonempty
(pdf-converter.js 368-373). -/
def numberedSpaceRewrite (text : List Char) : Option (List Char) :=
  let digits := text.takeWhile Char.isDigit
  match text.drop digits.length with
  | p :: r2 =>
    if digits ≠ [] ∧ (p = '.' ∨ p = ')') then
      let ws := r2.takeWhile isJsWS
      if ws ≠ [] then
        let rest := dotStar (r2.drop ws.length)
        if 0 < rest.length then some (digits ++ ('.' :: ' ' :: rest)) else none
      else none
    else none
  | [] => none

/-- `/^(\d+)[.)](.*)/` rewritten to `match[1] + '. ' + match[2]` when the
test `/^\d+[.)]([A-Z])/` passes and `match[2]` is nonempty
(pdf-converter.js 376-381). -/
def numberedMergedRewrite (text : List Char) : Option (List Char) :=
  let digits := text.takeWhile Char.isDigit
  match text.drop digits.length with
  | p :: r2 =>
    let up : Bool := match r2.head? with | some u => u.isUpper | none => false
    if digits ≠ [] ∧ (p = '.' ∨ p = ')') ∧ up = true then
      let rest := dotStar r2
      if 0 < rest.length then some (digits ++ ('.' :: ' ' :: rest)) else none
    else none
  | [] => none

/-- `/^([a-z])[.)]\s*(.*)/i` rewritten to
`'    ' + match[1].toLowerCase() + '. ' + match[2]` when the test
`/^[a-z][.)]\s*/i` passes (pdf-converter.js 384-389). -/
def letteredRewrite (text : List Char) : Option (List Char) :=
  match text with
  | c0 :: c1 :: r2 =>
    if c0.isAlpha ∧ (c1 = '.' ∨ c1 = ')') then
      let rest := dotStar (r2.dropWhile isJsWS)
      some ("    ".data ++ (c0.toLower :: '.' :: ' ' :: rest))
    else none
  | _ => none

/-- The alternation `(i{1,3}|iv|v|vi{0,3})` in backtracking order: the
greedy `i{1,3}` tries three, two, one `i`; then `iv`; then `v`; then the
greedy `vi{0,3}` tries `viii`, `vii`, `vi`, `v`. -/
def romanCands : List (List Char) :=
  [['i', 'i', 'i'], ['i', 'i'], ['i'], ['i', 'v'], ['v'],
   ['v', 'i', 'i', 'i'], ['v', 'i', 'i'], ['v', 'i'], ['v']]

/-- Case-insensitive list-prefix test (the regex `i` flag). -/
def startsWithCI : List Char → List Char → Bool
  | [], _ => true
  | _ :: _, [] => false
  | p :: ps, c :: cs => p = c.toLower && startsWithCI ps cs

/-- `/^(i{1,3}|iv|v|vi{0,3})[.)]\s*(.*)/i` rewritten to
`'        ' + match[1].toLowerCase() + '. ' + match[2]` when the roman test
passes (pdf-converter.js 392-397); candidates are tried in the regex
backtracking order, each requiring a following `.` or `)`. -/
def romanRewrite (text : List Char) : Option (List Char) :=
  (romanCands.filter
      (fun cand =>
        startsWithCI cand text &&
          (match (text.drop cand.length).head? with
           | some p => p = '.' || p = ')'
           | none => false))).head?.map
    (fun cand =>
      let matched := text.take cand.length
      let after := text.drop (cand.length + 1)
      let rest := dotStar (after.dropWhile isJsWS)
      "        ".data ++ (toLowerStr matched ++ ('.' :: ' ' :: rest)))

/-- The bullet-glyph class `[•●○◦▪▫►▸-]` (pdf-converter.js 400). -/
def isBulletChar (c : Char) : Bool :=
  c = '•' || c = '●' || c = '○' || c = '◦' || c = '▪' || c = '▫' ||
    c = '►' || c = '▸' || c = '-'

/-- The trailing indentation test `/^\d+\./` (pdf-converter.js 406). -/
def testNumDot (text : List Char) : Bool :=
  let digits := text.takeWhile Char.isDigit
  digits ≠ [] && (match (text.drop digits.length).head? with
                  | some p => p = '.'
                  | none => false)

/-- The word/gap joining loop (pdf-converter.js 303-321): starting from
`lastEndX = lineItems[0].x`, a space is inserted before an item (other than
the first) whenever the gap from the previous estimated end exceeds
`0.2 × avgCharWidth`, where `avgCharWidth = fontSize × 0.5`; the estimated
end advances by `str.length × avgCharWidth`. -/
def joinRuns (acc : List Char) (lastEndX : ℚ) (first : Bool) :
    List RunItem → List Char
  | [] => acc
  | item :: rest =>
    let avgCharWidth := item.fontSize * 0.5
    let gap := item.x - lastEndX
    let acc1 := if first = false ∧ gap > avgCharWidth * 0.2 then acc ++ [' '] else acc
    joinRuns (acc1 ++ item.str) (item.x + (item.str.length : ℚ) * avgCharWidth) false rest

/-- The line-grouping loop (pdf-converter.js 279-295): a new line starts when
the vertical distance from the previous item exceeds the fixed tolerance 3. -/
def groupLinesLoop (lines : List (List RunItem)) (currentLine : List RunItem)
    (lastY : ℚ) : List RunItem → List (List RunItem)
  | [] => if currentLine ≠ [] then lines ++ [currentLine] else lines
  | item :: rest =>
    if jsAbs (item.y - lastY) > 3 then
      let lines1 := if currentLine ≠ [] then lines ++ [currentLine] else lines
      groupLinesLoop lines1 [item] item.y rest
    else
      groupLinesLoop lines (currentLine ++ [item]) item.y rest

/-- The classifier chain of the sorted-line body (pdf-converter.js 352-410),
taking the repaired text, the average font size, the bold flag and the
X-derived indentation, evaluated in strict source order: heading levels by
average font size, emphasized bold line, numbered list (spaced and merged),
lettered sub-item, roman-numeral sub-item, bullet glyph, plain indentation. -/
def classifyLine (text : List Char) (avgFontSize : ℚ) (isBold : Bool)
    (indentPre : List Char) : List Char :=
  if 20 ≤ avgFontSize then "# ".data ++ text
  else if 16 ≤ avgFontSize then "## ".data ++ text
  else if 14 ≤ avgFontSize ∧ isBold = true then "### ".data ++ text
  else if 13 ≤ avgFontSize ∧ isBold = true ∧ text.length < 80 then
    "#### ".data ++ text
  else if isBold = true ∧ text.length < 60 ∧ ¬ text.contains ':' then
    "**".data ++ text ++ "**".data
  else
    match numberedSpaceRewrite text with
    | some r => r
    | none =>
      match numberedMergedRewrite text with
      | some r => r
      | none =>
        match letteredRewrite text with
        | some r => r
        | none =>
          match romanRewrite text with
          | some r => r
          | none =>
            match text with
            | c :: rest =>
              if isBulletChar c then
                indentPre ++ "- ".data ++ rest.dropWhile isJsWS
              else if indentPre ≠ [] ∧ testNumDot text = false then
                indentPre ++ text
              else text
            | [] =>
              if indentPre ≠ [] ∧ testNumDot text = false then indentPre ++ text
              else text

/-- Processing of one grouped line after the stable sort by X (the body of
the `lines.map` callback, pdf-converter.js 303-410): gap joining, trim, the
repair chain, then the classifier chain in source order. -/
def processPTBLineSorted : List RunItem → List Char
  | [] => []
  | i0 :: tl =>
    classifyLine
      (fixSpacing (jsTrim (joinRuns [] i0.x true (i0 :: tl))))
      (((i0 :: tl).foldl (fun s i => s + i.fontSize) 0) / (((i0 :: tl).length : ℚ)))
      ((i0 :: tl).any (fun i => fontNameIsBold i.fontName))
      (if i0.x > 100 then "        ".data
       else if i0.x > 60 then "    ".data
       else [])

/-- Processing of one grouped line (pdf-converter.js 298-411):
`lineItems.sort((a, b) => a.x - b.x)` followed by the sorted-line body. -/
def processPTBLine (lineItems0 : List RunItem) : List Char :=
  processPTBLineSorted (stableSortAscBy (fun i => i.x) lineItems0)

/-- `processTextBlock` (pdf-converter.js 275-414): group the block items into
lines, process each line, join with newlines. -/
def processTextBlock (items : List RunItem) : List Char :=
  match items with
  | [] => []
  | i0 :: _ => joinNL ((groupLinesLoop [] [] i0.y items).map processPTBLine)

/-- Pushing the current block (pdf-converter.js 236-241 and 259-264): blocks
whose rendered text is whitespace-only are dropped; the block's
representative `y` is its `maxY`. -/
def pushBlock (blocks : List TextBlock) (cur : List RunItem) (maxY : ℚ) :
    List TextBlock :=
  if cur = [] then blocks
  else
    let t := processTextBlock cur
    if jsTrim t ≠ [] then blocks ++ [⟨maxY, t⟩] else blocks

/-- The block-segmentation loop (pdf-converter.js 228-256): whitespace-only
items are skipped; a new block starts when the vertical distance from the
previous kept item exceeds `1.5 ×` the current item's rounded font size. -/
def etbLoop (blocks : List TextBlock) (cur : List RunItem) (maxY : ℚ)
    (lastY : Option ℚ) : List PdfTextItem → List TextBlock
  | [] => pushBlock blocks cur maxY
  | item :: rest =>
    if item.str = [] ∨ jsTrim item.str = [] then etbLoop blocks cur maxY lastY rest
    else
      let y := item.ty
      let fontSize := jsRound item.height
      let run : RunItem := ⟨item.str, item.tx, y, fontSize, item.fontName⟩
      match lastY with
      | some ly =>
        if jsAbs (y - ly) > fontSize * 1.5 then
          etbLoop (pushBlock blocks cur maxY) [run] y (some y) rest
        else
          etbLoop blocks (cur ++ [run]) (if cur = [] then y else jsMax maxY y)
            (some y) rest
      | none =>
        etbLoop blocks (cur ++ [run]) (if cur = [] then y else jsMax maxY y)
          (some y) rest

/-- `extractTextBlocks` (pdf-converter.js 220-268). -/
def extractTextBlocks (items : List PdfTextItem) : List TextBlock :=
  match items with
  | [] => []
  | _ :: _ => etbLoop [] [] 0 none items

/-! ### Synthetic glyph-run layout for the word/gap property (C4)

A text of words separated by single spaces is rendered as one glyph run per
word, with exact metrics: every character is `fontSize × 0.5` wide and each
inter-word space advances the pen by one further character width. -/

/-- Words joined by single spaces: the original text. -/
def joinWords : List (List Char) → List Char
  | [] => []
  | [w] => w
  | w :: ws => w ++ ' ' :: joinWords ws

/-- Glyph runs for the given words starting at pen position `x`. -/
def layoutRuns (f : ℚ) (fname : List Char) : List (List Char) → ℚ → List RunItem
  | [], _ => []
  | w :: ws, x =>
    ⟨w, x, 0, f, fname⟩ ::
      layoutRuns f fname ws (x + ((w.length : ℚ) + 1) * (f * 0.5))

/-- Synthetic glyph runs for a list of words at font size `f`. -/
def synthRuns (f : ℚ) (fname : List Char) (ws : List (List Char)) : List RunItem :=
  layoutRuns f fname ws 0

/-- No occurrence of the adjacent pair `(p)(q)`. -/
def noAdjPair (p q : Char → Bool) : List Char → Bool
  | a :: b :: rest => !(p a && q b) && noAdjPair p q (b :: rest)
  | _ => true

/-- No occurrence of the adjacent triple `(p)(q)(r)`. -/
def noAdjTriple (p q r : Char → Bool) : List Char → Bool
  | a :: b :: c :: rest => !(p a && q b && r c) && noAdjTriple p q r (b :: c :: rest)
  | _ => true

/-- The text contains none of the patterns rewritten by the typographic
repair chain (pdf-converter.js 326-336), so `fixSpacing` leaves it
unchanged. -/
def repairInert (t : List Char) : Bool :=
  noAdjPair Char.isLower Char.isUpper t &&
  noAdjPair (fun c => c = '.') Char.isAlpha t &&
  noAdjPair (fun c => c = ':') Char.isAlpha t &&
  noAdjPair (fun c => c = ',') Char.isAlpha t &&
  noAdjPair (fun c => c = ';') Char.isAlpha t &&
  noAdjPair Char.isDigit Char.isUpper t &&
  noAdjPair Char.isLower Char.isDigit t &&
  noAdjTriple Char.isLower Char.isUpper Char.isLower t &&
  noAdjPair (fun c => c = ')') Char.isUpper t &&
  noAdjPair (fun c => c = ']') Char.isUpper t

/-- The text matches none of the list/bullet classifier patterns
(pdf-converter.js 368-410). -/
def listClassifierInert (t : List Char) : Bool :=
  (numberedSpaceRewrite t).isNone && (numberedMergedRewrite t).isNone &&
  (letteredRewrite t).isNone && (romanRewrite t).isNone &&
  (match t.head? with
   | some c => !isBulletChar c
   | none => true)

/-! ## The HTML-to-Markdown normalizer (export.js 1104-1448)

The parsed HTML tree is modeled by `HNode`: an element with tag, attributes
and child nodes, or a text node.  Tags are stored lowercase (the source
always compares `tagName.toLowerCase()`, or uppercase names such as `'OL'`
against the DOM's uppercase `tagName`, which is the same comparison).  DOM
parent pointers are modeled by threading the parent's tag through the
recursion, and the recursion is fuel-indexed (the fuel only bounds the
depth; any fuel at least the tree size gives the full rendering). -/

/-- A parsed HTML node. -/
inductive HNode : Type
  | element : List Char → List (List Char × List Char) → List HNode → HNode
  | text : List Char → HNode

/-- `getAttribute`. -/
def getAttr (attrs : List (List Char × List Char)) (name : List Char) :
    Option (List Char) :=
  (attrs.find? (fun p => p.1 = name)).map (fun p => p.2)

/-- `'    '.repeat(depth)`. -/
def indentOf (depth : Nat) : List Char :=
  (List.replicate depth "    ".data).flatten

/-- JavaScript number-to-string for the list counter. -/
def natDigits (n : Nat) : List Char :=
  Nat.toDigits 10 n

/-- `Array.prototype.join(sep)`. -/
def joinWith (sep : List Char) : List (List Char) → List Char
  | [] => []
  | [x] => x
  | x :: xs => x ++ sep ++ joinWith sep xs

/-- `.replace(/\|/g, '\\|')` used on table cells. -/
def escapePipes (l : List Char) : List Char :=
  l.flatMap (fun c => if c = '|' then ['\\', '|'] else [c])

/-- `querySelectorAll` restricted to a tag list: all descendant elements
with a matching tag, in document order, fuel-bounded. -/
def qsaList (tags : List (List Char)) : Nat → List HNode → List HNode
  | _, [] => []
  | 0, _ :: _ => []
  | fuel + 1, n :: rest =>
    (match n with
     | .text _ => []
     | .element t a cs =>
       (if tags.contains t then [HNode.element t a cs] else []) ++
         qsaList tags fuel cs) ++
      qsaList tags fuel rest

/-- `mergeConsecutiveLists` (export.js 1126-1157), fuel-indexed: two
adjacent sibling elements that are both ordered lists (or both unordered
lists) are merged by moving the second list's children into the first and
re-checking the same position, exactly as the source loop with its index
adjustment does. -/
def mergeConsecutiveListsF : Nat → List HNode → List HNode
  | 0, l => l
  | _ + 1, [] => []
  | fuel + 1, n :: rest =>
    match n, rest with
    | .element t1 a1 cs1, .element t2 _a2 cs2 :: rest2 =>
      if t1 = "ol".data ∧ t2 = "ol".data then
        mergeConsecutiveListsF fuel (.element t1 a1 (cs1 ++ cs2) :: rest2)
      else if t1 = "ul".data ∧ t2 = "ul".data then
        mergeConsecutiveListsF fuel (.element t1 a1 (cs1 ++ cs2) :: rest2)
      else n :: mergeConsecutiveListsF fuel rest
    | _, _ => n :: mergeConsecutiveListsF fuel rest

/-- `mergeConsecutiveLists` on a container's element children. -/
def mergeConsecutiveLists (l : List HNode) : List HNode :=
  mergeConsecutiveListsF l.length l

/-- The inline-marker wrapper shared by bold, italic, underline and
strikethrough (export.js 1259-1300): empty content is returned as is, and a
single leading or trailing space is preserved outside the markers. -/
def wrapMarker (marker : List Char) (content : List Char) : List Char :=
  let trimmed := jsTrim content
  if trimmed = [] then content
  else
    let leadingSpace := if content.head? = some ' ' then [' '] else []
    let trailingSpace := if content.getLast? = some ' ' then [' '] else []
    leadingSpace ++ marker ++ trimmed ++ marker ++ trailingSpace

/-- The rendering tasks of the mutually recursive normalizer functions
(`processNodes`, `processElement`, `processListItems`, `processTable` and
their inner loops), combined into one fuel-indexed recursion so that the
definitions compute by structural recursion on the fuel. -/
inductive RTask : Type
  | nodes : List Char → List HNode → List Char → RTask
  | elem : List Char → HNode → List Char → RTask
  | litems : HNode → List Char → Nat → RTask
  | lichildren : List HNode → List Char → Nat → Nat → RTask
  | litext : List HNode → RTask
  | linested : List HNode → Nat → RTask
  | table : HNode → RTask
  | trows : List HNode → Bool → RTask

/-- The combined normalizer recursion; each constructor's case is the body
of the corresponding source function (export.js 1213-1448). -/
def render : Nat → RTask → List Char
  | 0, _ => []
  | fuel + 1, task =>
    match task with
    | .nodes parent nodes context =>
      -- processNodes (export.js 1213-1225)
      (match nodes with
       | [] => []
       | .text s :: rest => s ++ render fuel (.nodes parent rest context)
       | .element t a cs :: rest =>
         render fuel (.elem parent (.element t a cs) context) ++
           render fuel (.nodes parent rest context))
    | .elem parent n context =>
      -- processElement (export.js 1233-1367)
      (match n with
       | .text s => s
       | .element tag attrs cs =>
         let children := fun (_ : Unit) => render fuel (.nodes tag cs context)
         if tag = "h1".data then '\n' :: "# ".data ++ jsTrim (children ()) ++ "\n\n".data
         else if tag = "h2".data then '\n' :: "## ".data ++ jsTrim (children ()) ++ "\n\n".data
         else if tag = "h3".data then '\n' :: "### ".data ++ jsTrim (children ()) ++ "\n\n".data
         else if tag = "h4".data then '\n' :: "#### ".data ++ jsTrim (children ()) ++ "\n\n".data
         else if tag = "h5".data then '\n' :: "##### ".data ++ jsTrim (children ()) ++ "\n\n".data
         else if tag = "h6".data then '\n' :: "###### ".data ++ jsTrim (children ()) ++ "\n\n".data
         else if tag = "p".data then
           let pContent := jsTrim (children ())
           if pContent = [] then [] else pContent ++ "\n\n".data
         else if tag = "strong".data ∨ tag = "b".data then wrapMarker "**".data (children ())
         else if tag = "em".data ∨ tag = "i".data then wrapMarker "*".data (children ())
         else if tag = "u".data then wrapMarker "_".data (children ())
         else if tag = "s".data ∨ tag = "strike".data ∨ tag = "del".data then
           wrapMarker "~~".data (children ())
         else if tag = "code".data then
           if parent = "pre".data then children ()
           else '`' :: children () ++ ['`']
         else if tag = "pre".data then
           "\n```\n".data ++ jsTrim (children ()) ++ "\n```\n\n".data
         else if tag = "blockquote".data then
           let quoteLines := splitNL (jsTrim (children ()))
           '\n' :: joinNL (quoteLines.map (fun line => "> ".data ++ line)) ++ "\n\n".data
         else if tag = "ul".data then
           '\n' :: render fuel (.litems (.element tag attrs cs) "ul".data 0) ++ ['\n']
         else if tag = "ol".data then
           '\n' :: render fuel (.litems (.element tag attrs cs) "ol".data 0) ++ ['\n']
         else if tag = "li".data then children ()
         else if tag = "a".data then
           let href := match getAttr attrs "href".data with | some v => v | none => []
           let linkText := jsTrim (children ())
           if href ≠ [] then '[' :: linkText ++ "](".data ++ href ++ [')']
           else linkText
         else if tag = "img".data then
           let src := match getAttr attrs "src".data with | some v => v | none => []
           let altRaw := match getAttr attrs "alt".data with | some v => v | none => []
           let alt := if altRaw = [] then "Image".data else altRaw
           "\n<p align=\"center\"><img src=\"".data ++ src ++ "\" alt=\"".data ++ alt ++
             "\" style=\"max-width: 100%;\"></p>\n\n".data
         else if tag = "br".data then ['\n']
         else if tag = "hr".data then "\n---\n\n".data
         else if tag = "table".data then
           '\n' :: render fuel (.table (.element tag attrs cs)) ++ ['\n']
         else children ())
    | .litems n ltype depth =>
      -- processListItems (export.js 1376-1418)
      (match n with
       | .text _ => []
       | .element _ _ cs => render fuel (.lichildren cs ltype depth 1))
    | .lichildren childs ltype depth itemNumber =>
      -- the loop over listElement.children, carrying itemNumber
      (match childs with
       | [] => []
       | child :: rest =>
         match child with
         | .text _ => render fuel (.lichildren rest ltype depth itemNumber)
         | .element t _ cns =>
           if t = "li".data then
             let itemText := jsTrim (render fuel (.litext cns))
             let nestedLists := render fuel (.linested cns depth)
             let line :=
               if ltype = "ul".data then indentOf depth ++ "- ".data ++ itemText ++ ['\n']
               else indentOf depth ++ natDigits itemNumber ++ ". ".data ++ itemText ++ ['\n']
             let withNested := if nestedLists ≠ [] then line ++ nestedLists else line
             withNested ++
               render fuel (.lichildren rest ltype depth
                 (if ltype = "ul".data then itemNumber else itemNumber + 1))
           else render fuel (.lichildren rest ltype depth itemNumber))
    | .litext childNodes =>
      -- the direct item text accumulated by the inner childNodes loop
      (match childNodes with
       | [] => []
       | .text s :: rest => s ++ render fuel (.litext rest)
       | .element t a cns :: rest =>
         if t = "ul".data ∨ t = "ol".data then render fuel (.litext rest)
         else render fuel (.elem "li".data (.element t a cns) "list".data) ++
           render fuel (.litext rest))
    | .linested childNodes depth =>
      -- the nested lists accumulated by the inner childNodes loop
      (match childNodes with
       | [] => []
       | .text _ :: rest => render fuel (.linested rest depth)
       | .element t a cns :: rest =>
         if t = "ul".data then
           render fuel (.litems (.element t a cns) "ul".data (depth + 1)) ++
             render fuel (.linested rest depth)
         else if t = "ol".data then
           render fuel (.litems (.element t a cns) "ol".data (depth + 1)) ++
             render fuel (.linested rest depth)
         else render fuel (.linested rest depth))
    | .table n =>
      -- processTable (export.js 1425-1448)
      (match n with
       | .text _ => []
       | .element _ _ cs =>
         let rows := qsaList ["tr".data] (fuel + 1) cs
         if rows.isEmpty then []
         else render fuel (.trows rows true))
    | .trows rows isFirstRow =>
      -- the row loop of processTable, carrying isFirstRow
      (match rows with
       | [] => []
       | row :: rest =>
         let cells :=
           match row with
           | .text _ => []
           | .element _ _ rcs => qsaList ["th".data, "td".data] (fuel + 1) rcs
         let cellContents := cells.map
           (fun cell =>
             match cell with
             | .text _ => []
             | .element ct _ ccs => escapePipes (jsTrim (render fuel (.nodes ct ccs []))))
         let line := "| ".data ++ joinWith " | ".data cellContents ++ " |\n".data
         let sep :=
           if isFirstRow then
             "| ".data ++ joinWith " | ".data (cellContents.map (fun _ => "---".data)) ++
               " |\n".data
           else []
         line ++ sep ++ render fuel (.trows rest false))

/-- `processNodes` (export.js 1213-1225). -/
def processNodes (fuel : Nat) (parent : List Char) (nodes : List HNode)
    (context : List Char) : List Char :=
  render fuel (.nodes parent nodes context)

/-- `processElement` (export.js 1233-1367). -/
def processElement (fuel : Nat) (parent : List Char) (n : HNode)
    (context : List Char) : List Char :=
  render fuel (.elem parent n context)

/-- `processListItems` (export.js 1376-1418). -/
def processListItems (fuel : Nat) (n : HNode) (ltype : List Char) (depth : Nat) :
    List Char :=
  render fuel (.litems n ltype depth)

/-- `processTable` (export.js 1425-1448). -/
def processTable (fuel : Nat) (n : HNode) : List Char :=
  render fuel (.table n)

/-! ## The image collapse/restore codec (editor.js 881-915, 936-949)

`collapseImages` runs two global regex replaces over the content — first
the centered-HTML image pattern
`/<p[^>]*><img[^>]*src="(data:image[^"]*)"[^>]*><\/p>/g`, then the Markdown
image pattern `/!\[([^\]]*)\]\((data:image[^)]+)\)/g` — replacing each match
with a placeholder `[📷 IMAGE-COLLAPSED-<id>]` and storing the whole match
under the freshly generated id.  `restoreImages` replaces every
`/\[📷 IMAGE-COLLAPSED-([^\]]+)\]/g` match by the stored original
(`imageStore[id] || match`).  The `'img-' + Math.random()...` id generator
is modeled as `"img-"` plus an explicit supply of suffixes, and the store
as an association list.  Each matcher is embedded with the exact JavaScript
semantics of its pattern, including the greedy character classes and the
backtracking of `[^>]*` before `src="`. -/

/-- Consume an exact literal: `afterLit pat s = some r` iff `s = pat ++ r`. -/
def afterLit : List Char → List Char → Option (List Char)
  | [], s => some s
  | _ :: _, [] => none
  | p :: ps, c :: cs => if p = c then afterLit ps cs else none

/-- The placeholder literal up to the id: `[📷 IMAGE-COLLAPSED-`. -/
def phPre : List Char :=
  "[📷 IMAGE-COLLAPSED-".data

/-- The matcher of `/!\[([^\]]*)\]\((data:image[^)]+)\)/` at the head of the
input: `![`, then the greedy `[^\]]*` (up to the first `]`), then `](`, the
literal `data:image`, the greedy nonempty `[^)]+` (up to the first `)`),
then `)`.  Returns the matched text and the remainder. -/
def tryMd (s : List Char) : Option (List Char × List Char) :=
  match s with
  | '!' :: '[' :: r1 =>
    let alt := r1.takeWhile (fun c => !(c = ']'))
    (match r1.drop alt.length with
     | ']' :: '(' :: r2 =>
       (match afterLit "data:image".data r2 with
        | some r3 =>
          let u := r3.takeWhile (fun c => !(c = ')'))
          if u.isEmpty then none
          else
            (match r3.drop u.length with
             | ')' :: rest =>
               some ('!' :: '[' :: alt ++ ']' :: '(' :: "data:image".data ++
                 u ++ [')'], rest)
             | _ => none)
        | none => none)
     | _ => none)
  | _ => none

/-- Continuation of the HTML matcher after `src="`: the literal
`data:image`, the greedy `[^"]*`, `"`, the greedy `[^>]*`, `>`, `</p>`.
Returns the `[^"]*` group, the `[^>]*` run and the remainder. -/
def htmlAfterSrc (r : List Char) : Option (List Char × List Char × List Char) :=
  match afterLit "data:image".data r with
  | none => none
  | some r4 =>
    let u := r4.takeWhile (fun c => !(c = '"'))
    (match r4.drop u.length with
     | '"' :: r5 =>
       let a2 := r5.takeWhile (fun c => !(c = '>'))
       (match r5.drop a2.length with
        | '>' :: r6 =>
          (match afterLit "</p>".data r6 with
           | none => none
           | some rest => some (u, a2, rest))
        | _ => none)
     | _ => none)

/-- One backtracking candidate of the HTML matcher: `[^>]*` consumes `k`
characters, then `src="` and the continuation must match.  Returns the text
matched from the `[^>]*` run onward and the remainder. -/
def htmlCheckSplit (r3 : List Char) (k : Nat) : Option (List Char × List Char) :=
  match afterLit "src=\"".data (r3.drop k) with
  | none => none
  | some rAfter =>
    match htmlAfterSrc rAfter with
    | none => none
    | some (u, a2, rest) =>
      some (r3.take k ++ "src=\"".data ++ "data:image".data ++ u ++
        '"' :: (a2 ++ '>' :: "</p>".data), rest)

/-- The greedy backtracking over the `[^>]*` before `src="`: split sizes are
tried from the maximal non-`>` run length downward. -/
def htmlTrySplit (r3 : List Char) : Nat → Option (List Char × List Char)
  | 0 => htmlCheckSplit r3 0
  | k + 1 =>
    match htmlCheckSplit r3 (k + 1) with
    | some res => some res
    | none => htmlTrySplit r3 k

/-- The matcher of `/<p[^>]*><img[^>]*src="(data:image[^"]*)"[^>]*><\/p>/`
at the head of the input. -/
def tryHtml (s : List Char) : Option (List Char × List Char) :=
  match afterLit "<p".data s with
  | none => none
  | some r1 =>
    let attrs := r1.takeWhile (fun c => !(c = '>'))
    (match r1.drop attrs.length with
     | '>' :: r2 =>
       (match afterLit "<img".data r2 with
        | none => none
        | some r3 =>
          (match htmlTrySplit r3 (r3.takeWhile (fun c => !(c = '>'))).length with
           | none => none
           | some (tailPart, rest) =>
             some ("<p".data ++ attrs ++ '>' :: "<img".data ++ tailPart, rest)))
     | _ => none)

/-- The matcher of `/\[📷 IMAGE-COLLAPSED-([^\]]+)\]/` at the head of the
input. -/
def tryPH (s : List Char) : Option (List Char × List Char) :=
  match afterLit phPre s with
  | none => none
  | some r1 =>
    let id := r1.takeWhile (fun c => !(c = ']'))
    if id.isEmpty then none
    else
      match r1.drop id.length with
      | ']' :: rest => some (phPre ++ id ++ [']'], rest)
      | _ => none

/-- Fuel-indexed left-to-right global replace, the model of
`String.prototype.replace` with the `g` flag and a callback: at each
position the matcher is tried; on a match the callback's replacement is
appended (never rescanned) and scanning resumes after the match, otherwise
the character is copied.  The state `σ` threads the image store and the
id counter through the callbacks. -/
def replAll {σ : Type} (tm : List Char → Option (List Char × List Char))
    (repl : List Char → σ → List Char × σ) : Nat → List Char → σ → List Char × σ
  | 0, s, st => (s, st)
  | _ + 1, [], st => ([], st)
  | fuel + 1, c :: cs, st =>
    match tm (c :: cs) with
    | some (m, rest) =>
      let pr := repl m st
      let tr := replAll tm repl fuel rest pr.2
      (pr.1 ++ tr.1, tr.2)
    | none =>
      let tr := replAll tm repl fuel cs st
      (c :: tr.1, tr.2)

/-- `replAll` with sufficient fuel (the input length). -/
def replAllF {σ : Type} (tm : List Char → Option (List Char × List Char))
    (repl : List Char → σ → List Char × σ) (s : List Char) (st : σ) :
    List Char × σ :=
  replAll tm repl s.length s st

/-- The image store: generated placeholder id to original matched text. -/
abbrev Store : Type :=
  List (List Char × List Char)

/-- `imageStore[id]` lookup. -/
def lookupStore (store : Store) (id : List Char) : Option (List Char) :=
  (List.find? (fun p => p.1 = id) store).map (fun p => p.2)

/-- The collapse callback (editor.js 890-893 and 897-900): generate a fresh
id, store the whole match under it, and emit the placeholder token. -/
def collapseRepl (sup : Nat → List Char) (m : List Char) (st : Store × Nat) :
    List Char × (Store × Nat) :=
  let id := "img-".data ++ sup st.2
  (phPre ++ id ++ [']'], (st.1 ++ [(id, m)], st.2 + 1))

/-- `collapseImages` (editor.js 881-904): the HTML-image pass followed by
the Markdown-image pass, threading the store and the id counter. -/
def collapseImages (sup : Nat → List Char) (content : List Char)
    (st : Store × Nat) : List Char × (Store × Nat) :=
  let r1 := replAllF tryHtml (collapseRepl sup) content st
  replAllF tryMd (collapseRepl sup) r1.1 r1.2

/-- `restoreImages` (editor.js 911-915): every placeholder token is replaced
by `imageStore[id] || match` — the stored original if present and nonempty
(JavaScript `||` treats the empty string as falsy), the token itself
otherwise. -/
def restoreImages (store : Store) (content : List Char) : List Char :=
  (replAllF tryPH
    (fun m _ =>
      (match lookupStore store ((m.drop phPre.length).dropLast) with
       | some orig => if orig = [] then m else orig
       | none => m, ()))
    content ()).1

/-- The editor state visible to the public accessor (editor.js 835-837). -/
structure EditorState where
  text : List Char
  imageStore : Store
  imagesCollapsed : Bool

/-- The public `getContent` accessor (editor.js 936-949): when images are
collapsed the current text is restored through the store, otherwise it is
returned as is. -/
def getContent (st : EditorState) : List Char :=
  if st.imagesCollapsed then restoreImages st.imageStore st.text else st.text

/-! ### Well-formed image documents

The collapse contract is settled over documents that interleave inert plain
text with well-formed embedded images of the two collapse forms (the
canonical centered-HTML fragment both pipelines emit, and Markdown
data-URL image syntax).  The conditions below are exactly what keeps each
scanning pass aligned with the segment boundaries. -/

/-- A source-document segment: plain text, a centered-HTML embedded image
(payload suffix and alt text), or a Markdown embedded image (alt text and
payload suffix). -/
inductive Seg : Type
  | plain : List Char → Seg
  | himg : List Char → List Char → Seg
  | mimg : List Char → List Char → Seg

/-- The canonical centered-HTML image fragment
(pdf-converter.js 181, export.js 1344). -/
def renderHimg (u alt : List Char) : List Char :=
  "<p align=\"center\"><img src=\"data:image".data ++ u ++ "\" alt=\"".data ++
    alt ++ "\" style=\"max-width: 100%;\"></p>".data

/-- A Markdown data-URL image `![alt](data:imageu)`. -/
def renderMimg (alt u : List Char) : List Char :=
  '!' :: '[' :: alt ++ ']' :: '(' :: "data:image".data ++ u ++ [')']

/-- Rendering of a segment. -/
def renderSeg : Seg → List Char
  | .plain s => s
  | .himg u alt => renderHimg u alt
  | .mimg alt u => renderMimg alt u

/-- Rendering of a document. -/
def renderDoc (segs : List Seg) : List Char :=
  (segs.map renderSeg).flatten

/-- The `[^>]*` run of the canonical `<img>` tag, from which the
backtracking search for `src="` picks its split. -/
def himgRun (u alt : List Char) : List Char :=
  " src=\"data:image".data ++ u ++ "\" alt=\"".data ++ alt ++
    "\" style=\"max-width: 100%;\"".data

/-- Plain text is inert for all three scanning passes when it contains none
of the trigger characters `<`, `!`, `[`. -/
def plainCharOK (c : Char) : Bool :=
  !(c = '<' || c = '!' || c = '[')

/-- Well-formedness of a segment. -/
def segOK : Seg → Bool
  | .plain s => s.all plainCharOK
  | .himg u alt =>
    u.all (fun c => !(c = '"' || c = '>')) &&
    alt.all (fun c => !(c = '"' || c = '>')) &&
    !containsSub "src=\"".data ((himgRun u alt).drop 2 ++ ['>'])
  | .mimg alt u =>
    alt.all (fun c => !(c = ']' || c = '<')) &&
    u.all (fun c => !(c = ')' || c = '<')) &&
    !u.isEmpty

/-- Well-formedness of a document. -/
def docOK (segs : List Seg) : Bool :=
  segs.all segOK

/-- Whether a segment carries no embedded image. -/
def isPlainSeg : Seg → Bool
  | .plain _ => true
  | _ => false

/-- Conditions on the id-suffix supply modeling `Math.random`: distinct
suffixes, free of `]` (so tokens are self-delimiting), of `!` (so the
Markdown pass scans over tokens), and of `[` (so the restore pass cannot
start a match inside a token). -/
def supCharOK (c : Char) : Bool :=
  !(c = ']' || c = '!' || c = '[')

/-- A collapsed-document segment: plain text, a still-uncollapsed Markdown
image, or a placeholder token carrying its counter value. -/
inductive CSeg : Type
  | plain : List Char → CSeg
  | mimg : List Char → List Char → CSeg
  | tok : Nat → CSeg

/-- Rendering of a collapsed-document segment: the token for counter `n`
carries the id `img-` + the supplied suffix. -/
def renderCSeg (sup : Nat → List Char) : CSeg → List Char
  | .plain s => s
  | .mimg alt u => renderMimg alt u
  | .tok n => phPre ++ ("img-".data ++ sup n) ++ [']']

/-- Rendering of a collapsed document. -/
def renderCDoc (sup : Nat → List Char) (segs : List CSeg) : List Char :=
  (segs.map (renderCSeg sup)).flatten

/-- The effect of the HTML-image pass on a well-formed document: each
centered-HTML image becomes the token of the running counter and is stored;
plain text and Markdown images pass through.  Returns the collapsed
segments, the store entries in scan order, and the final counter. -/
def p1 (sup : Nat → List Char) : List Seg → Nat → List CSeg × Store × Nat
  | [], n => ([], [], n)
  | .plain s :: rest, n =>
    let r := p1 sup rest n
    (.plain s :: r.1, r.2.1, r.2.2)
  | .mimg alt u :: rest, n =>
    let r := p1 sup rest n
    (.mimg alt u :: r.1, r.2.1, r.2.2)
  | .himg u alt :: rest, n =>
    let r := p1 sup rest (n + 1)
    (.tok n :: r.1, ("img-".data ++ sup n, renderHimg u alt) :: r.2.1, r.2.2)

/-- The effect of the Markdown-image pass on a collapsed document: each
Markdown image becomes the token of the running counter and is stored. -/
def p2 (sup : Nat → List Char) : List CSeg → Nat → List CSeg × Store × Nat
  | [], n => ([], [], n)
  | .plain s :: rest, n =>
    let r := p2 sup rest n
    (.plain s :: r.1, r.2.1, r.2.2)
  | .tok k :: rest, n =>
    let r := p2 sup rest n
    (.tok k :: r.1, r.2.1, r.2.2)
  | .mimg alt u :: rest, n =>
    let r := p2 sup rest (n + 1)
    (.tok n :: r.1, ("img-".data ++ sup n, renderMimg alt u) :: r.2.1, r.2.2)

/-- A restore-phase segment: plain text or a placeholder token with an
explicit id. -/
inductive RSeg : Type
  | plain : List Char → RSeg
  | rtok : List Char → RSeg

/-- Rendering of a restore-phase segment. -/
def renderRSeg : RSeg → List Char
  | .plain s => s
  | .rtok id => phPre ++ id ++ [']']

/-- Rendering of a restore-phase document. -/
def renderRDoc (segs : List RSeg) : List Char :=
  (segs.map renderRSeg).flatten

/-- Well-formedness of a restore-phase segment: plain text without `[`, and
token ids that are nonempty and free of `]` and `[`. -/
def rsegOK : RSeg → Bool
  | .plain s => s.all (fun c => !(c = '['))
  | .rtok id => !id.isEmpty && id.all (fun c => !(c = ']' || c = '['))

/-- Well-formedness of a restore-phase document. -/
def rdocOK (segs : List RSeg) : Bool :=
  segs.all rsegOK

/-- The per-segment effect of `restoreImages`: a token whose id maps to a
nonempty stored original becomes that original text; any other token is
left unchanged. -/
def mapRestore (store : Store) : RSeg → RSeg
  | .plain s => .plain s
  | .rtok id =>
    match lookupStore store id with
    | some orig => if orig = [] then .rtok id else .plain orig
    | none => .rtok id

/-- The collapsed-document view of a fully collapsed document as
restore-phase segments. -/
def csegToR (sup : Nat → List Char) : CSeg → RSeg
  | .plain s => .plain s
  | .mimg alt u => .plain (renderMimg alt u)
  | .tok n => .rtok ("img-".data ++ sup n)

/-- Well-formedness of a collapsed-document segment (what the HTML pass
hands to the Markdown pass): inert plain text, well-formed Markdown images,
arbitrary tokens. -/
def csegOK : CSeg → Bool
  | .plain s => s.all plainCharOK
  | .mimg alt u =>
    alt.all (fun c => !(c = ']' || c = '<')) &&
    u.all (fun c => !(c = ')' || c = '<')) &&
    !u.isEmpty
  | .tok _ => true

/-- Well-formedness of a collapsed document. -/
def cdocOK (l : List CSeg) : Bool :=
  l.all csegOK

/-- Whether the text contains a placeholder token at some position. -/
def hasPH : List Char → Bool
  | [] => false
  | c :: cs => (tryPH (c :: cs)).isSome || hasPH cs

/-- Whether some position of the content carries a placeholder token whose
id is present in the store (a "leaked" placeholder). -/
def hasLeakedTok (store : Store) : List Char → Bool
  | [] => false
  | c :: cs =>
    (match tryPH (c :: cs) with
     | some (m, _) => (lookupStore store ((m.drop phPre.length).dropLast)).isSome
     | none => false) ||
      hasLeakedTok store cs

/-! ## Theorems -/

/-! ### Helper lemmas for the post-formatter -/

theorem noTripleNL_tail {a : Char} {l : List Char}
    (h : noTripleNL (a :: l) = true) : noTripleNL l = true := by
  match l with
  | [] => rfl
  | [_] => rfl
  | b :: c :: rest =>
    simp only [noTripleNL, Bool.and_eq_true] at h
    exact h.2

theorem singleHT_tail {a : Char} {l : List Char}
    (h : singleHT (a :: l) = true) : singleHT l = true := by
  match l with
  | [] => rfl
  | b :: rest =>
    simp only [singleHT, Bool.and_eq_true] at h
    exact h.2

theorem noHyphenBreak_tail {a : Char} {l : List Char}
    (h : noHyphenBreak (a :: l) = true) : noHyphenBreak l = true := by
  match l with
  | [] => rfl
  | [_] => rfl
  | [_, _] => rfl
  | b :: c :: d :: rest =>
    simp only [noHyphenBreak, Bool.and_eq_true] at h
    exact h.2

theorem collapseNLAux_id (l : List Char) :
    (noTripleNL l = true → collapseNLAux 0 l = l) ∧
    (noTripleNL ('\n' :: l) = true → collapseNLAux 1 l = l) ∧
    (noTripleNL ('\n' :: '\n' :: l) = true → collapseNLAux 2 l = l) := by
  induction l with
  | nil => exact ⟨fun _ => rfl, fun _ => rfl, fun _ => rfl⟩
  | cons c rest ih =>
    refine ⟨?_, ?_, ?_⟩ <;> intro h
    · by_cases hc : c = '\n'
      · subst hc
        simp only [collapseNLAux, if_pos rfl]
        norm_num
        exact ih.2.1 h
      · simp only [collapseNLAux, if_neg hc]
        exact congrArg _ (ih.1 (noTripleNL_tail h))
    · by_cases hc : c = '\n'
      · subst hc
        simp only [collapseNLAux, if_pos rfl]
        norm_num
        exact ih.2.2 h
      · simp only [collapseNLAux, if_neg hc]
        exact congrArg _ (ih.1 (noTripleNL_tail (noTripleNL_tail h)))
    · by_cases hc : c = '\n'
      · subst hc
        simp only [noTripleNL, Bool.and_eq_true] at h
        simp at h
      · simp only [collapseNLAux, if_neg hc]
        exact congrArg _ (ih.1 (noTripleNL_tail (noTripleNL_tail (noTripleNL_tail h))))

theorem collapseNewlines_id {l : List Char} (h : noTripleNL l = true) :
    collapseNewlines l = l :=
  (collapseNLAux_id l).1 h

theorem hyphenJoinF_id : ∀ (n : Nat) (l : List Char),
    noHyphenBreak l = true → hyphenJoinF n l = l := by
  intro n
  induction n with
  | zero => intro l _; rfl
  | succ n ih =>
    intro l h
    match l with
    | [] => rfl
    | [a] => simp only [hyphenJoinF]; rw [ih [] rfl]
    | [a, b] => simp only [hyphenJoinF]; rw [ih [b] rfl]
    | [a, b, c] => simp only [hyphenJoinF]; rw [ih [b, c] rfl]
    | a :: b :: c :: d :: rest2 =>
      simp only [noHyphenBreak, Bool.and_eq_true, Bool.not_eq_true'] at h
      simp only [hyphenJoinF]
      rw [if_neg (by simp only [h.1]; exact Bool.false_ne_true)]
      exact congrArg _ (ih _ h.2)

theorem hyphenJoin_id {l : List Char} (h : noHyphenBreak l = true) :
    hyphenJoin l = l :=
  hyphenJoinF_id l.length l h

theorem collapseSpacesAux_id (l : List Char) :
    (noTab l = true → singleHT l = true → collapseSpacesAux false l = l) ∧
    (noTab l = true → singleHT l = true →
      (∀ c, l.head? = some c → isHT c = false) → collapseSpacesAux true l = l) := by
  induction l with
  | nil => exact ⟨fun _ _ => rfl, fun _ _ _ => rfl⟩
  | cons c rest ih =>
    have htail : noTab (c :: rest) = true → noTab rest = true := by
      intro h
      simp only [noTab, List.all_cons, Bool.and_eq_true] at h
      exact h.2
    constructor
    · intro htab hht
      by_cases hc : isHT c = true
      · have hsp : c = ' ' := by
          simp only [noTab, List.all_cons, Bool.and_eq_true, Bool.not_eq_true',
            decide_eq_false_iff_not] at htab
          simp only [isHT, Bool.or_eq_true, decide_eq_true_eq] at hc
          exact hc.resolve_right htab.1
        simp only [collapseSpacesAux, if_pos hc, if_neg (by simp : ¬(false = true))]
        rw [hsp]
        refine congrArg _ (ih.2 (htail htab) (singleHT_tail hht) ?_)
        intro d hd
        rcases rest with _ | ⟨e, rest2⟩
        · simp at hd
        · simp only [List.head?_cons, Option.some.injEq] at hd
          subst hd
          simp only [singleHT, Bool.and_eq_true, Bool.not_eq_true'] at hht
          have := hht.1
          rw [hc] at this
          simpa using this
      · simp only [collapseSpacesAux, if_neg hc]
        exact congrArg _ (ih.1 (htail htab) (singleHT_tail hht))
    · intro htab hht hhead
      have hc : isHT c = false := hhead c rfl
      simp only [collapseSpacesAux, if_neg (by simp [hc] : ¬(isHT c = true))]
      exact congrArg _ (ih.1 (htail htab) (singleHT_tail hht))

theorem collapseSpaces_id {l : List Char} (h1 : noTab l = true)
    (h2 : singleHT l = true) : collapseSpaces l = l :=
  (collapseSpacesAux_id l).1 h1 h2

theorem dropWhile_eq_self_of_headNot {p : Char → Bool} {l : List Char}
    (h : ∀ c, l.head? = some c → p c = false) : l.dropWhile p = l := by
  cases l with
  | nil => rfl
  | cons c rest =>
    rw [List.dropWhile_cons, if_neg (by simp [h c rfl])]

theorem jsTrim_id {l : List Char} (h : trimmedEnds l = true) : jsTrim l = l := by
  simp only [trimmedEnds, Bool.and_eq_true] at h
  have h1 : l.dropWhile isJsWS = l := by
    apply dropWhile_eq_self_of_headNot
    intro c hc
    have := h.1
    rw [hc] at this
    simpa using this
  have h2 : l.reverse.dropWhile isJsWS = l.reverse := by
    apply dropWhile_eq_self_of_headNot
    intro c hc
    rw [List.head?_reverse] at hc
    have := h.2
    rw [hc] at this
    simpa using this
  rw [jsTrim, h1, h2, List.reverse_reverse]

theorem splitNL_ne_nil (l : List Char) : splitNL l ≠ [] := by
  cases l with
  | nil => simp [splitNL]
  | cons c rest =>
    simp only [splitNL]
    split
    · simp
    · split
      · simp
      · simp

theorem joinNL_splitNL (l : List Char) : joinNL (splitNL l) = l := by
  induction l with
  | nil => rfl
  | cons c rest ih =>
    by_cases hc : c = '\n'
    · subst hc
      simp only [splitNL, if_pos rfl]
      rcases hsp : splitNL rest with _ | ⟨a, ls⟩
      · exact absurd hsp (splitNL_ne_nil rest)
      · rw [hsp] at ih
        simp only [joinNL, List.nil_append]
        rw [ih]
    · simp only [splitNL, if_neg hc]
      rcases hsp : splitNL rest with _ | ⟨a, ls⟩
      · exact absurd hsp (splitNL_ne_nil rest)
      · rw [hsp] at ih
        rcases ls with _ | ⟨b, ls2⟩
        · simp only [joinNL] at ih ⊢
          rw [ih]
        · simp only [joinNL, List.cons_append] at ih ⊢
          rw [← ih]

theorem map_jsTrim_id {ls : List (List Char)} (h : ls.all trimmedEnds = true) :
    ls.map jsTrim = ls := by
  induction ls with
  | nil => rfl
  | cons a ls ih =>
    simp only [List.all_cons, Bool.and_eq_true] at h
    simp only [List.map_cons, jsTrim_id h.1, ih h.2]

/-! ### C1: idempotence of the post-formatter -/

/-- C1 (counterexample): the post-formatter is *not* idempotent for arbitrary
Markdown.  On `"a-\n b"` the first pass only trims the line `" b"`, producing
`"a-\nb"`, in which the per-line trimming has created a fresh
word-hyphen-newline-word juncture; the second pass then rejoins it to
`"ab"`.  So `format(format(x)) ≠ format(x)` at this input. -/
theorem C1_counterexample :
    formatMarkdown (formatMarkdown ("a-\n b".data)) ≠ formatMarkdown ("a-\n b".data) := by
  decide

/-- C1 (amended): applying `formatMarkdown` to a string that is already in
formatted shape — no runs of three or more newlines, no word-hyphen-linebreak
-word junctures, no tabs, no repeated horizontal whitespace, every line
trimmed and the document trimmed — is a no-op.  (Idempotence on arbitrary
input fails, because line trimming can create new `\n{3,}` runs and new
`(\w)-\n(\w)` junctures that only the next application rewrites; see
`C1_counterexample`.) -/
theorem C1_amended (l : List Char) (h : isFormatted l = true) :
    formatMarkdown l = l := by
  simp only [isFormatted, Bool.and_eq_true] at h
  obtain ⟨⟨⟨⟨⟨h1, h2⟩, h3⟩, h4⟩, h5⟩, h6⟩ := h
  unfold formatMarkdown
  rw [collapseNewlines_id h1, hyphenJoin_id h2, collapseSpaces_id h3 h4,
    map_jsTrim_id (by simpa [linesTrimmed] using h5), joinNL_splitNL, jsTrim_id h6]

/-- Witness for `C1_amended` at a concrete formatted document. -/
theorem C1_amended_witness :
    isFormatted ("# Title\n\nHello world".data) = true ∧
      formatMarkdown ("# Title\n\nHello world".data) = "# Title\n\nHello world".data :=
  ⟨by decide, C1_amended _ (by decide)⟩

/-! ### C6: page assembly ordering and page concatenation -/

unseal Rat.mul Rat.add Rat.sub Rat.inv Rat.ofScientific in
/-- C6: page assembly sorts a page's merged content items by descending
vertical position with a stable sort, so for items `text A (y=500)`,
`image I (y=650)`, `text B (y=500)` appended in that order the assembled
order is `I, A, B`; and pages are concatenated in page order with no
page-boundary marker between them, as witnessed by the two-page document
whose assembled markdown is exactly `"A\n\nB"`. -/
theorem C6_page_assembly :
    sortContent [ContentItem.text 500 "A".data, ContentItem.image 650 "I".data,
        ContentItem.text 500 "B".data] =
      [ContentItem.image 650 "I".data, ContentItem.text 500 "A".data,
        ContentItem.text 500 "B".data] ∧
    docMarkdown [[ContentItem.text 500 "A".data], [ContentItem.text 400 "B".data]] =
      "A\n\nB".data := by
  constructor
  · decide
  · decide

/-! ### C7: transform-stack walk positions -/

unseal Rat.mul Rat.add Rat.sub Rat.inv Rat.ofScientific in
/-- C7: for the operator sequence `save, transform(dx=0, dy=100),
paintImage(ref1), restore, paintImage(ref2)` starting from the identity
matrix, the transform-stack walk records vertical position `y = 100` for
`ref1` and `y = 0` for `ref2`. -/
theorem C7_transform_walk :
    extractImagePositions
        [PdfOp.save, PdfOp.transform ⟨1, 0, 0, 1, 0, 100⟩,
          PdfOp.paintImageXObject "ref1".data, PdfOp.restore,
          PdfOp.paintImageXObject "ref2".data] =
      [("ref1".data, 100), ("ref2".data, 0)] := by
  decide

/-! ### C8: the transform stack never pops below one entry -/

theorem ctmScanStep_stack_len {st : CtmScanState} (op : PdfOp)
    (h : 1 ≤ st.ctmStack.length) : 1 ≤ (ctmScanStep st op).ctmStack.length := by
  cases op with
  | save =>
    cases hst : st.ctmStack with
    | nil => rw [hst] at h; simp at h
    | cons top rest => simp [ctmScanStep, hst]
  | restore =>
    simp only [ctmScanStep]
    split
    · simp only [List.length_tail]
      omega
    · exact h
  | transform m =>
    cases hst : st.ctmStack with
    | nil => rw [hst] at h; simp at h
    | cons top rest => simp [ctmScanStep, hst]
  | paintImageXObject name =>
    simp only [ctmScanStep]
    split
    · exact h
    · exact h
  | paintJpegXObject name =>
    simp only [ctmScanStep]
    split
    · exact h
    · exact h

theorem ctmScan_foldl_stack_len :
    ∀ (ops : List PdfOp) (st : CtmScanState), 1 ≤ st.ctmStack.length →
      1 ≤ (ops.foldl ctmScanStep st).ctmStack.length := by
  intro ops
  induction ops with
  | nil => intro st h; exact h
  | cons op rest ih =>
    intro st h
    exact ih (ctmScanStep st op) (ctmScanStep_stack_len op h)

/-- C8: however malformed the operator sequence — in particular with more
`restore` operations than `save` operations — the transform-matrix stack of
the scan never shrinks below one entry: excess restores are ignored by the
guard rather than propagated as an error.  Since `ops` ranges over all
sequences, this bounds the stack after every prefix of every scan. -/
theorem C8_stack_never_empty (ops : List PdfOp) :
    1 ≤ (ctmScan ops).ctmStack.length :=
  ctmScan_foldl_stack_len ops { ctmStack := [identityMat], imageOps := [] } (by simp)

/-! ### C5: heading classification of a large-font block -/

unseal Rat.mul Rat.add Rat.sub Rat.inv Rat.ofScientific in
/-- C5: glyph runs for `"Introduction"` at font size 24 followed, with a
vertical gap of 40 (exceeding `1.5 ×` the current font size 11), by a
font-size-11 paragraph run are segmented into exactly two blocks, and the
first renders as the level-1 heading `"# Introduction"` (average font size
`≥ 20`). -/
theorem C5_heading_classification :
    extractTextBlocks
        [⟨"Introduction".data, 50, 700, 24, "Helvetica".data⟩,
         ⟨"This is a short paragraph.".data, 50, 660, 11, "Helvetica".data⟩] =
      [⟨700, "# Introduction".data⟩,
       ⟨660, "This is a short paragraph.".data⟩] := by
  decide

/-! ### C4: word/gap reconstruction -/

unseal Rat.mul Rat.add Rat.sub Rat.inv Rat.ofScientific in
/-- C4 (counterexample): spacing is *not* reproduced exactly for all text
over single spaces and standard ASCII punctuation.  The text `"e.g"`,
rendered as a single synthetic run with exact metrics, is rewritten by the
typographic repair pass `\.([A-Za-z])` (and then by the lettered-item rule)
to `"    e. g"`, which differs from the original spacing. -/
theorem C4_counterexample :
    processTextBlock (synthRuns 12 "F1".data [['e', '.', 'g']]) ≠
      joinWords [['e', '.', 'g']] := by
  decide

theorem noAdjPair_tail {p q : Char → Bool} {a : Char} {l : List Char}
    (h : noAdjPair p q (a :: l) = true) : noAdjPair p q l = true := by
  match l with
  | [] => rfl
  | b :: rest =>
    simp only [noAdjPair, Bool.and_eq_true] at h
    exact h.2

theorem noAdjTriple_tail {p q r : Char → Bool} {a : Char} {l : List Char}
    (h : noAdjTriple p q r (a :: l) = true) : noAdjTriple p q r l = true := by
  match l with
  | [] => rfl
  | [_] => rfl
  | b :: c :: rest =>
    simp only [noAdjTriple, Bool.and_eq_true] at h
    exact h.2

theorem fixPairF_id {p q : Char → Bool} : ∀ (n : Nat) (l : List Char),
    noAdjPair p q l = true → fixPairF p q n l = l := by
  intro n
  induction n with
  | zero => intro l _; rfl
  | succ n ih =>
    intro l h
    match l with
    | [] => rfl
    | [a] => rfl
    | a :: b :: rest =>
      simp only [noAdjPair, Bool.and_eq_true, Bool.not_eq_true'] at h
      simp only [fixPairF]
      rw [if_neg (by simp only [h.1]; exact Bool.false_ne_true)]
      exact congrArg _ (ih _ h.2)

theorem fixPair_id {p q : Char → Bool} {l : List Char}
    (h : noAdjPair p q l = true) : fixPair p q l = l :=
  fixPairF_id l.length l h

theorem fixTripleF_id {p q r : Char → Bool} : ∀ (n : Nat) (l : List Char),
    noAdjTriple p q r l = true → fixTripleF p q r n l = l := by
  intro n
  induction n with
  | zero => intro l _; rfl
  | succ n ih =>
    intro l h
    match l with
    | [] => rfl
    | [a] => simp only [fixTripleF]; rw [ih [] rfl]
    | [a, b] => simp only [fixTripleF]; rw [ih [b] rfl]
    | a :: b :: c :: rest =>
      simp only [noAdjTriple, Bool.and_eq_true, Bool.not_eq_true'] at h
      simp only [fixTripleF]
      rw [if_neg (by simp only [h.1]; exact Bool.false_ne_true)]
      exact congrArg _ (ih _ h.2)

theorem fixTriple_id {p q r : Char → Bool} {l : List Char}
    (h : noAdjTriple p q r l = true) : fixTriple p q r l = l :=
  fixTripleF_id l.length l h

theorem fixSpacing_id {t : List Char} (h : repairInert t = true) :
    fixSpacing t = t := by
  simp only [repairInert, Bool.and_eq_true] at h
  obtain ⟨⟨⟨⟨⟨⟨⟨⟨⟨h1, h2⟩, h3⟩, h4⟩, h5⟩, h6⟩, h7⟩, h8⟩, h9⟩, h10⟩ := h
  simp only [fixSpacing, fixPair_id h1, fixPair_id h2, fixPair_id h3,
    fixPair_id h4, fixPair_id h5, fixPair_id h6, fixPair_id h7, fixTriple_id h8,
    fixPair_id h9, fixPair_id h10]

theorem insertAscBy_append {α : Type} (key : α → ℚ) (x : α) :
    ∀ (acc : List α), (∀ a ∈ acc, ¬ (key x < key a)) →
      insertAscBy key x acc = acc ++ [x] := by
  intro acc
  induction acc with
  | nil => intro _; rfl
  | cons y rest ih =>
    intro h
    simp only [insertAscBy, if_neg (h y (by simp))]
    rw [ih (fun a ha => h a (by simp [ha]))]
    simp

theorem foldl_insertAscBy {α : Type} (key : α → ℚ) :
    ∀ (l acc : List α), l.Pairwise (fun a b => key a < key b) →
      (∀ a ∈ acc, ∀ b ∈ l, ¬ (key b < key a)) →
      l.foldl (fun acc x => insertAscBy key x acc) acc = acc ++ l := by
  intro l
  induction l with
  | nil => intro acc _ _; simp
  | cons x l ih =>
    intro acc hp hacc
    rw [List.pairwise_cons] at hp
    simp only [List.foldl_cons]
    rw [insertAscBy_append key x acc (fun a ha => hacc a ha x (by simp))]
    rw [ih (acc ++ [x]) hp.2 ?_]
    · simp
    · intro a ha b hb
      rcases List.mem_append.mp ha with h1 | h1
      · exact hacc a h1 b (by simp [hb])
      · simp only [List.mem_singleton] at h1
        subst h1
        exact lt_asymm (hp.1 b hb)

theorem stableSortAscBy_sorted_id {α : Type} (key : α → ℚ) (l : List α)
    (h : l.Pairwise (fun a b => key a < key b)) : stableSortAscBy key l = l := by
  have := foldl_insertAscBy key l [] h (by simp)
  simpa [stableSortAscBy] using this

theorem layoutRuns_fields (f : ℚ) (fname : List Char) :
    ∀ (ws : List (List Char)) (x : ℚ) (i : RunItem),
      i ∈ layoutRuns f fname ws x →
      i.fontSize = f ∧ i.y = 0 ∧ i.fontName = fname := by
  intro ws
  induction ws with
  | nil => intro x i hi; simp [layoutRuns] at hi
  | cons w ws ih =>
    intro x i hi
    simp only [layoutRuns, List.mem_cons] at hi
    rcases hi with h1 | h1
    · subst h1; exact ⟨rfl, rfl, rfl⟩
    · exact ih _ i h1

theorem layoutRuns_x_lb (f : ℚ) (fname : List Char) (hf : 0 < f) :
    ∀ (ws : List (List Char)) (x : ℚ) (i : RunItem),
      i ∈ layoutRuns f fname ws x → x ≤ i.x := by
  intro ws
  induction ws with
  | nil => intro x i hi; simp [layoutRuns] at hi
  | cons w ws ih =>
    intro x i hi
    simp only [layoutRuns, List.mem_cons] at hi
    rcases hi with h1 | h1
    · subst h1; exact le_refl _
    · have hx : x ≤ x + ((w.length : ℚ) + 1) * (f * 0.5) := by nlinarith [Nat.cast_nonneg (α := ℚ) w.length]
      exact le_trans hx (ih _ i h1)

theorem layoutRuns_pairwise (f : ℚ) (fname : List Char) (hf : 0 < f) :
    ∀ (ws : List (List Char)) (x : ℚ),
      (layoutRuns f fname ws x).Pairwise (fun a b => a.x < b.x) := by
  intro ws
  induction ws with
  | nil => intro x; simp [layoutRuns]
  | cons w ws ih =>
    intro x
    simp only [layoutRuns]
    rw [List.pairwise_cons]
    refine ⟨?_, ih _⟩
    intro b hb
    have h1 : x + ((w.length : ℚ) + 1) * (f * 0.5) ≤ b.x := layoutRuns_x_lb f fname hf ws _ b hb
    have h2 : (0 : ℚ) < ((w.length : ℚ) + 1) * (f * 0.5) := by nlinarith [Nat.cast_nonneg (α := ℚ) w.length]
    calc (⟨w, x, 0, f, fname⟩ : RunItem).x = x := rfl
      _ < x + ((w.length : ℚ) + 1) * (f * 0.5) := by linarith
      _ ≤ b.x := h1

theorem groupLinesLoop_const :
    ∀ (items : List RunItem) (lines : List (List RunItem)) (cur : List RunItem) (ly : ℚ),
      (∀ i ∈ items, i.y = ly) →
      groupLinesLoop lines cur ly items =
        if cur ++ items = [] then lines else lines ++ [cur ++ items] := by
  intro items
  induction items with
  | nil =>
    intro lines cur ly _
    cases cur with
    | nil => simp [groupLinesLoop]
    | cons c cs => simp [groupLinesLoop]
  | cons i rest ih =>
    intro lines cur ly h
    have hy : i.y = ly := h i (by simp)
    have habs : ¬ jsAbs (i.y - ly) > 3 := by
      rw [hy, sub_self]
      simp [jsAbs]
    simp only [groupLinesLoop, if_neg habs]
    rw [ih _ _ _ (fun j hj => by rw [h j (by simp [hj]), hy])]
    have hne : cur ++ [i] ++ rest ≠ [] := by simp
    have hne2 : cur ++ i :: rest ≠ [] := by simp
    rw [if_neg hne, if_neg hne2]
    simp

theorem joinRuns_layout_tail (f : ℚ) (fname : List Char) (hf : 0 < f) :
    ∀ (ws : List (List Char)) (x : ℚ) (acc : List Char),
      joinRuns acc (x - f * 0.5) false (layoutRuns f fname ws x) =
        acc ++ (ws.map (fun w => ' ' :: w)).join := by
  intro ws
  induction ws with
  | nil => intro x acc; simp [layoutRuns, joinRuns]
  | cons w ws ih =>
    intro x acc
    simp only [layoutRuns, joinRuns]
    have hgap : x - (x - f * 0.5) > f * 0.5 * 0.2 := by nlinarith
    rw [if_pos ⟨trivial, hgap⟩]
    have hx : x + (w.length : ℚ) * (f * 0.5) =
        (x + ((w.length : ℚ) + 1) * (f * 0.5)) - f * 0.5 := by ring
    rw [hx, ih]
    simp

theorem joinRuns_layout (f : ℚ) (fname : List Char) (hf : 0 < f)
    (w : List Char) (ws : List (List Char)) :
    joinRuns [] 0 true (layoutRuns f fname (w :: ws) 0) = joinWords (w :: ws) := by
  simp only [layoutRuns, joinRuns]
  rw [if_neg (by simp)]
  have hx : (0 : ℚ) + (w.length : ℚ) * (f * 0.5) =
      ((0 : ℚ) + ((w.length : ℚ) + 1) * (f * 0.5)) - f * 0.5 := by ring
  rw [hx, joinRuns_layout_tail f fname hf]
  have hjw : ∀ (v : List Char) (vs : List (List Char)),
      joinWords (v :: vs) = v ++ (vs.map (fun u => ' ' :: u)).join := by
    intro v vs
    induction vs generalizing v with
    | nil => simp [joinWords]
    | cons u us ih =>
      simp only [joinWords, List.map_cons, List.join]
      rw [ih u]
      simp
  rw [hjw]
  simp

theorem foldl_fontSize_const (f : ℚ) :
    ∀ (l : List RunItem) (s : ℚ), (∀ i ∈ l, i.fontSize = f) →
      l.foldl (fun s i => s + i.fontSize) s = s + (l.length : ℚ) * f := by
  intro l
  induction l with
  | nil => intro s _; simp
  | cons i rest ih =>
    intro s h
    simp only [List.foldl_cons]
    rw [h i (by simp), ih (s + f) (fun j hj => h j (by simp [hj]))]
    simp only [List.length_cons]
    push_cast
    ring

theorem layout_any_bold (f : ℚ) (fname : List Char)
    (h : fontNameIsBold fname = false) :
    ∀ (ws : List (List Char)) (x : ℚ),
      (layoutRuns f fname ws x).any (fun i => fontNameIsBold i.fontName) = false := by
  intro ws
  induction ws with
  | nil => intro x; rfl
  | cons w ws ih =>
    intro x
    simp only [layoutRuns, List.any_cons, Bool.or_eq_false_iff]
    exact ⟨h, ih _⟩

set_option maxHeartbeats 2000000 in
/-- C4 (amended): for every nonempty word list whose single-space joined
text avoids the typographic-repair trigger patterns, the list/bullet
classifier patterns, and boundary whitespace, and for every positive font
size below the heading thresholds with a non-bold font name, running the
word/gap reconstruction on synthetic glyph runs with exact metrics
(character width `fontSize × 0.5`, one character width per inter-word
space) reproduces the original spacing exactly.  (For arbitrary text over
single spaces and ASCII punctuation the reconstruction is *not* exact; see
`C4_counterexample`.) -/
theorem C4_amended (f : ℚ) (fname : List Char) (w : List Char) (ws : List (List Char))
    (hf : 0 < f) (h16 : f < 16)
    (hbold : fontNameIsBold fname = false)
    (htrim : trimmedEnds (joinWords (w :: ws)) = true)
    (hrep : repairInert (joinWords (w :: ws)) = true)
    (hcls : listClassifierInert (joinWords (w :: ws)) = true) :
    processTextBlock (synthRuns f fname (w :: ws)) = joinWords (w :: ws) := by
  have hruns : synthRuns f fname (w :: ws) =
      (⟨w, 0, 0, f, fname⟩ : RunItem) ::
        layoutRuns f fname ws (0 + ((w.length : ℚ) + 1) * (f * 0.5)) := rfl
  rw [hruns]
  have hmem : ∀ i ∈ (⟨w, 0, 0, f, fname⟩ : RunItem) ::
      layoutRuns f fname ws (0 + ((w.length : ℚ) + 1) * (f * 0.5)),
      i.fontSize = f ∧ i.y = 0 ∧ i.fontName = fname := by
    intro i hi
    exact layoutRuns_fields f fname (w :: ws) 0 i hi
  show joinNL ((groupLinesLoop [] [] (0 : ℚ)
      ((⟨w, 0, 0, f, fname⟩ : RunItem) ::
        layoutRuns f fname ws (0 + ((w.length : ℚ) + 1) * (f * 0.5)))).map
      processPTBLine) = joinWords (w :: ws)
  rw [groupLinesLoop_const _ [] [] 0 (fun i hi => (hmem i hi).2.1)]
  rw [if_neg (by simp)]
  simp only [List.nil_append, List.map_cons, List.map_nil]
  show processPTBLine ((⟨w, 0, 0, f, fname⟩ : RunItem) ::
      layoutRuns f fname ws (0 + ((w.length : ℚ) + 1) * (f * 0.5))) =
    joinWords (w :: ws)
  have hsorted : stableSortAscBy (fun i => i.x)
      ((⟨w, 0, 0, f, fname⟩ : RunItem) ::
        layoutRuns f fname ws (0 + ((w.length : ℚ) + 1) * (f * 0.5))) =
      (⟨w, 0, 0, f, fname⟩ : RunItem) ::
        layoutRuns f fname ws (0 + ((w.length : ℚ) + 1) * (f * 0.5)) :=
    stableSortAscBy_sorted_id _ _ (layoutRuns_pairwise f fname hf (w :: ws) 0)
  rw [processPTBLine, hsorted]
  have hjr : joinRuns [] (0 : ℚ) true
      ((⟨w, 0, 0, f, fname⟩ : RunItem) ::
        layoutRuns f fname ws (0 + ((w.length : ℚ) + 1) * (f * 0.5))) =
      joinWords (w :: ws) :=
    joinRuns_layout f fname hf w ws
  have hn : (((⟨w, 0, 0, f, fname⟩ : RunItem) ::
      layoutRuns f fname ws (0 + ((w.length : ℚ) + 1) * (f * 0.5))).length : ℚ) ≠ 0 := by
    simp only [List.length_cons]
    push_cast
    positivity
  have havg : (((⟨w, 0, 0, f, fname⟩ : RunItem) ::
      layoutRuns f fname ws (0 + ((w.length : ℚ) + 1) * (f * 0.5))).foldl
        (fun s i => s + i.fontSize) 0) /
      (((⟨w, 0, 0, f, fname⟩ : RunItem) ::
        layoutRuns f fname ws (0 + ((w.length : ℚ) + 1) * (f * 0.5))).length : ℚ) = f := by
    rw [foldl_fontSize_const f _ 0 (fun i hi => (hmem i hi).1), zero_add, mul_comm,
      mul_div_assoc, div_self hn, mul_one]
  have hisB : ((⟨w, 0, 0, f, fname⟩ : RunItem) ::
      layoutRuns f fname ws (0 + ((w.length : ℚ) + 1) * (f * 0.5))).any
      (fun i => fontNameIsBold i.fontName) = false :=
    layout_any_bold f fname hbold (w :: ws) 0
  simp only [processPTBLineSorted]
  rw [hjr, havg, hisB, jsTrim_id htrim, fixSpacing_id hrep]
  rw [if_neg (by norm_num : ¬ ((0 : ℚ) > 100)), if_neg (by norm_num : ¬ ((0 : ℚ) > 60))]
  unfold classifyLine
  rw [if_neg (by intro h; linarith : ¬ ((20 : ℚ) ≤ f)),
    if_neg (by intro h; linarith : ¬ ((16 : ℚ) ≤ f))]
  rw [if_neg (by simp : ¬ ((14 : ℚ) ≤ f ∧ false = true)),
    if_neg (by simp : ¬ ((13 : ℚ) ≤ f ∧ false = true ∧ (joinWords (w :: ws)).length < 80)),
    if_neg (by simp : ¬ (false = true ∧ (joinWords (w :: ws)).length < 60 ∧
      ¬ (joinWords (w :: ws)).contains ':'))]
  simp only [listClassifierInert, Bool.and_eq_true] at hcls
  obtain ⟨⟨⟨⟨hc1, hc2⟩, hc3⟩, hc4⟩, hc5⟩ := hcls
  rw [Option.isNone_iff_eq_none] at hc1 hc2 hc3 hc4
  cases hT : joinWords (w :: ws) with
  | nil =>
    rw [hT] at hc1 hc2 hc3 hc4
    simp only [hc1, hc2, hc3, hc4]
    simp
  | cons c restT =>
    rw [hT] at hc1 hc2 hc3 hc4 hc5
    simp only [hc1, hc2, hc3, hc4]
    simp only [List.head?_cons, Bool.not_eq_true'] at hc5
    rw [if_neg (by rw [hc5]; exact Bool.false_ne_true)]
    rw [if_neg (by simp)]

/-- Witness for `C4_amended`: the two-word text `"Hello world"` at font
size 12 is reconstructed with its exact original spacing. -/
theorem C4_amended_witness :
    (0 : ℚ) < 12 ∧ (12 : ℚ) < 16 ∧ fontNameIsBold ("F1".data) = false ∧
      trimmedEnds (joinWords ["Hello".data, "world".data]) = true ∧
      repairInert (joinWords ["Hello".data, "world".data]) = true ∧
      listClassifierInert (joinWords ["Hello".data, "world".data]) = true ∧
      processTextBlock (synthRuns 12 "F1".data ["Hello".data, "world".data]) =
        joinWords ["Hello".data, "world".data] :=
  ⟨by norm_num, by norm_num, by decide, by decide, by decide, by decide,
    C4_amended 12 "F1".data "Hello".data ["world".data] (by norm_num) (by norm_num)
      (by decide) (by decide) (by decide) (by decide)⟩

/-! ### C9: merging adjacent ordered lists and per-list renumbering -/

/-- C9: two adjacent sibling single-item ordered-list elements — here each
carrying a `start` attribute implying its own source numbering — are merged
by the normalizer's pre-pass into one ordered list, and list rendering
numbers the items sequentially `1.`, `2.` from its independently maintained
per-list counter, ignoring the source numbering. -/
theorem C9_merge_and_renumber :
    mergeConsecutiveLists
        [HNode.element "ol".data [("start".data, "3".data)]
           [HNode.element "li".data [] [HNode.text "First".data]],
         HNode.element "ol".data [("start".data, "7".data)]
           [HNode.element "li".data [] [HNode.text "Second".data]]] =
      [HNode.element "ol".data [("start".data, "3".data)]
         [HNode.element "li".data [] [HNode.text "First".data],
          HNode.element "li".data [] [HNode.text "Second".data]]] ∧
    processListItems 20
        (HNode.element "ol".data [("start".data, "3".data)]
          [HNode.element "li".data [] [HNode.text "First".data],
           HNode.element "li".data [] [HNode.text "Second".data]]) "ol".data 0 =
      "1. First\n2. Second\n".data := by
  exact ⟨rfl, by decide⟩

/-! ### Matcher groundwork for the image codec -/

/-- `afterLit` consumes exactly its literal. -/
theorem afterLit_some_iff (p : List Char) :
    ∀ s r, afterLit p s = some r ↔ s = p ++ r := by
  induction p with
  | nil => intro s r; simp [afterLit]
  | cons a ps ih =>
    intro s r
    cases s with
    | nil => simp [afterLit]
    | cons c cs =>
      by_cases h : a = c
      · subst h
        simp [afterLit, ih]
      · unfold afterLit
        rw [if_neg h]
        exact iff_of_false (by intro hh; cases hh)
          (by intro hh; injection hh with h1 h2; exact h h1.symm)

/-- `afterLit` succeeds on its own literal followed by anything. -/
theorem afterLit_self_append (p r : List Char) : afterLit p (p ++ r) = some r :=
  (afterLit_some_iff p (p ++ r) r).mpr rfl

/-- A greedy character-class run stops exactly at the first excluded
character. -/
theorem takeWhile_sentinel (p : Char → Bool) (a : List Char) (b : Char)
    (t : List Char) (ha : ∀ c ∈ a, p c = true) (hb : p b = false) :
    (a ++ b :: t).takeWhile p = a := by
  induction a with
  | nil => simp [List.takeWhile_cons, hb]
  | cons c a2 ih =>
    have hc : p c = true := ha c (by simp)
    simp only [List.cons_append, List.takeWhile_cons, hc, if_pos]
    exact congrArg (c :: ·) (ih fun x hx => ha x (by simp [hx]))

/-- Dropping the greedy run leaves the sentinel at the head. -/
theorem drop_after_takeWhile (p : Char → Bool) (a : List Char) (b : Char)
    (t : List Char) (ha : ∀ c ∈ a, p c = true) (hb : p b = false) :
    (a ++ b :: t).drop ((a ++ b :: t).takeWhile p).length = b :: t := by
  rw [takeWhile_sentinel p a b t ha hb]
  exact List.drop_left a (b :: t)

/-- The Markdown-image matcher fires only at `!`. -/
theorem tryMd_trigger (c : Char) (cs : List Char) (h : ¬ c = '!') :
    tryMd (c :: cs) = none := by
  unfold tryMd
  split <;> simp_all

/-- The HTML-image matcher fires only at `<`. -/
theorem tryHtml_trigger (c : Char) (cs : List Char) (h : ¬ c = '<') :
    tryHtml (c :: cs) = none := by
  have hd : afterLit "<p".data (c :: cs) = none := by
    have he : "<p".data = '<' :: ['p'] := rfl
    rw [he]
    unfold afterLit
    rw [if_neg fun hh => h hh.symm]
  unfold tryHtml
  rw [hd]

/-- The placeholder matcher fires only at `[`. -/
theorem tryPH_trigger (c : Char) (cs : List Char) (h : ¬ c = '[') :
    tryPH (c :: cs) = none := by
  have hd : afterLit phPre (c :: cs) = none := by
    have he : phPre = '[' :: "📷 IMAGE-COLLAPSED-".data := by decide
    rw [he]
    unfold afterLit
    rw [if_neg fun hh => h hh.symm]
  unfold tryPH
  rw [hd]

/-- The Markdown-image matcher consumes a well-formed Markdown image
exactly: the alt group stops at the first `]`, the payload group at the
first `)`. -/
theorem tryMd_exact (alt u rest : List Char) (halt : ∀ c ∈ alt, ¬ c = ']')
    (hu : ∀ c ∈ u, ¬ c = ')') (hune : ¬ u = []) :
    tryMd (renderMimg alt u ++ rest) = some (renderMimg alt u, rest) := by
  have hs : renderMimg alt u ++ rest =
      '!' :: '[' :: (alt ++ ']' :: '(' ::
        ("data:image".data ++ (u ++ ')' :: rest))) := by
    simp [renderMimg]
  have htw : (alt ++ ']' :: '(' ::
      ("data:image".data ++ (u ++ ')' :: rest))).takeWhile
        (fun c => !(c = ']')) = alt :=
    takeWhile_sentinel _ alt ']' _ (fun c hc => by simp [halt c hc]) (by decide)
  have htwu : (u ++ ')' :: rest).takeWhile (fun c => !(c = ')')) = u :=
    takeWhile_sentinel _ u ')' rest (fun c hc => by simp [hu c hc]) (by decide)
  have hie : u.isEmpty = false := by
    cases u with
    | nil => exact absurd rfl hune
    | cons a b => rfl
  rw [hs]
  unfold tryMd
  split
  case _ r1 heq =>
    injection heq with h1 heq
    injection heq with h2 heq
    subst heq
    rw [htw]
    unfold_let
    rw [List.drop_left]
    show (if (List.takeWhile (fun c => !(c = ')')) (u ++ ')' :: rest)).isEmpty =
          true then none
          else
            match List.drop (List.takeWhile (fun c => !(c = ')'))
                (u ++ ')' :: rest)).length (u ++ ')' :: rest) with
            | ')' :: rest2 =>
              some ('!' :: '[' :: alt ++ ']' :: '(' :: "data:image".data ++
                List.takeWhile (fun c => !(c = ')')) (u ++ ')' :: rest) ++ [')'],
                rest2)
            | _ => none) =
        some (renderMimg alt u, rest)
    rw [htwu, hie]
    simp [List.drop_left, renderMimg]
  case _ h =>
    exact (h _ rfl).elim

/-- The placeholder matcher consumes a well-formed placeholder token
exactly: the id group is the maximal nonempty `]`-free run. -/
theorem tryPH_exact (id rest : List Char) (hne : ¬ id = [])
    (hid : ∀ c ∈ id, ¬ c = ']') :
    tryPH (phPre ++ id ++ ']' :: rest) = some (phPre ++ id ++ [']'], rest) := by
  have htw : (id ++ ']' :: rest).takeWhile (fun c => !(c = ']')) = id :=
    takeWhile_sentinel _ id ']' rest (fun c hc => by simp [hid c hc]) (by decide)
  have hie : id.isEmpty = false := by
    cases id with
    | nil => exact absurd rfl hne
    | cons a b => rfl
  rw [List.append_assoc]
  unfold tryPH
  rw [afterLit_self_append]
  dsimp only
  rw [htw]
  rw [hie, List.drop_left]
  simp

/-- The continuation of the HTML matcher after `src="` consumes its groups
exactly when the payload is `"`-free and the following attribute run is
`>`-free. -/
theorem htmlAfterSrc_exact (u a2 t : List Char) (hu : ∀ c ∈ u, ¬ c = '"')
    (ha2 : ∀ c ∈ a2, ¬ c = '>') :
    htmlAfterSrc ("data:image".data ++ (u ++ '"' :: (a2 ++ '>' ::
      ("</p>".data ++ t)))) = some (u, a2, t) := by
  have htwu : (u ++ '"' :: (a2 ++ '>' :: ("</p>".data ++ t))).takeWhile
      (fun c => !(c = '"')) = u :=
    takeWhile_sentinel _ u '"' _ (fun c hc => by simp [hu c hc]) (by decide)
  have htwa : (a2 ++ '>' :: ("</p>".data ++ t)).takeWhile
      (fun c => !(c = '>')) = a2 :=
    takeWhile_sentinel _ a2 '>' _ (fun c hc => by simp [ha2 c hc]) (by decide)
  unfold htmlAfterSrc
  rw [afterLit_self_append]
  dsimp only
  rw [htwu, List.drop_left]
  show (match List.drop ((a2 ++ '>' :: ("</p>".data ++ t)).takeWhile
        (fun c => !(c = '>'))).length (a2 ++ '>' :: ("</p>".data ++ t)) with
    | '>' :: r6 =>
      (match afterLit "</p>".data r6 with
       | none => none
       | some rest =>
         some (u, (a2 ++ '>' :: ("</p>".data ++ t)).takeWhile
           (fun c => !(c = '>')), rest))
    | _ => none) = some (u, a2, t)
  rw [htwa, List.drop_left]
  show (match afterLit "</p>".data ("</p>".data ++ t) with
    | none => none
    | some rest => some (u, a2, rest)) = some (u, a2, t)
  rw [afterLit_self_append]

/-- A literal is a prefix of itself followed by anything. -/
theorem startsWithL_append_self (p r : List Char) :
    startsWithL p (p ++ r) = true := by
  induction p with
  | nil => rfl
  | cons a ps ih => simp [startsWithL, ih]

/-- A successful literal consumption is a prefix test. -/
theorem startsWithL_of_afterLit (p s r : List Char)
    (h : afterLit p s = some r) : startsWithL p s = true := by
  rw [(afterLit_some_iff p s r).mp h]
  exact startsWithL_append_self p r

/-- A failed prefix test refutes literal consumption. -/
theorem afterLit_eq_none (p s : List Char) (h : startsWithL p s = false) :
    afterLit p s = none := by
  cases ha : afterLit p s with
  | none => rfl
  | some r => rw [startsWithL_of_afterLit p s r ha] at h; cases h

/-- A prefix window of characters distinct from `>` cannot cross a `>`:
it already fits before it. -/
theorem startsWithL_stop_gt (p : List Char) (hp : ∀ c ∈ p, ¬ c = '>') :
    ∀ a r, startsWithL p (a ++ '>' :: r) = true →
      startsWithL p (a ++ ['>']) = true := by
  induction p with
  | nil => intro a r _; rfl
  | cons x ps ih =>
    intro a r h
    cases a with
    | nil =>
      simp only [List.nil_append, startsWithL, Bool.and_eq_true,
        decide_eq_true_eq] at h
      exact absurd h.1 (hp x (by simp))
    | cons b a2 =>
      simp only [List.cons_append, startsWithL, Bool.and_eq_true] at h ⊢
      exact ⟨h.1, ih (fun c hc => hp c (by simp [hc])) a2 r h.2⟩

/-- A prefix match at any dropped position is an occurrence. -/
theorem containsSub_of_drop (p : List Char) :
    ∀ s i, startsWithL p (s.drop i) = true → containsSub p s = true := by
  intro s
  induction s with
  | nil =>
    intro i h
    simpa [containsSub, List.drop_nil] using h
  | cons c cs ih =>
    intro i h
    cases i with
    | zero =>
      simp only [List.drop_zero] at h
      simp [containsSub, h]
    | succ j =>
      simp only [List.drop_succ_cons] at h
      simp [containsSub, ih j h]

/-- No character of the `[^>]*` run region of a well-formed canonical image
fragment is `>`. -/
theorem himgRun_no_gt (u alt : List Char) (hu : ∀ c ∈ u, ¬ c = '>')
    (halt : ∀ c ∈ alt, ¬ c = '>') : ∀ c ∈ himgRun u alt, ¬ c = '>' := by
  have l1 : ∀ x ∈ " src=\"data:image".data, ¬ x = '>' := by decide
  have l2 : ∀ x ∈ "\" alt=\"".data, ¬ x = '>' := by decide
  have l3 : ∀ x ∈ "\" style=\"max-width: 100%;\"".data, ¬ x = '>' := by decide
  intro c hc
  simp only [himgRun, List.append_assoc, List.mem_append] at hc
  rcases hc with h | h | h | h | h
  · exact l1 c h
  · exact hu c h
  · exact l2 c h
  · exact halt c h
  · exact l3 c h

/-- Backtracking candidates of the `[^>]*` run other than the true `src="`
position fail when the fragment has no spurious `src="` occurrence. -/
theorem checkSplit_none_of_ge2 (u alt t : List Char)
    (hns : containsSub "src=\"".data ((himgRun u alt).drop 2 ++ ['>']) =
      false) :
    ∀ j, 2 ≤ j → j ≤ (himgRun u alt).length →
      htmlCheckSplit (himgRun u alt ++ '>' :: ("</p>".data ++ t)) j = none := by
  intro j h2 hL
  have hsw : startsWithL "src=\"".data
      ((himgRun u alt ++ '>' :: ("</p>".data ++ t)).drop j) = false := by
    cases hb : startsWithL "src=\"".data
        ((himgRun u alt ++ '>' :: ("</p>".data ++ t)).drop j) with
    | false => rfl
    | true =>
      exfalso
      rw [List.drop_append_of_le_length hL] at hb
      have hb2 := startsWithL_stop_gt "src=\"".data (by decide) _ _ hb
      have hd : (himgRun u alt).drop j ++ ['>'] =
          ((himgRun u alt).drop 2 ++ ['>']).drop (j - 2) := by
        rw [List.drop_append_of_le_length
          (by simp [List.length_drop]; omega : j - 2 ≤
            ((himgRun u alt).drop 2).length)]
        rw [List.drop_drop, Nat.add_sub_cancel' h2]
      rw [hd] at hb2
      have := containsSub_of_drop "src=\"".data _ (j - 2) hb2
      rw [hns] at this
      cases this
  unfold htmlCheckSplit
  rw [afterLit_eq_none _ _ hsw]

/-- The backtracking candidate at the true `src="` position (one character
into the run) succeeds and reassembles the run exactly. -/
theorem checkSplit_one (u alt t : List Char) (hu : ∀ c ∈ u, ¬ c = '"')
    (halt : ∀ c ∈ alt, ¬ c = '>') :
    htmlCheckSplit (himgRun u alt ++ '>' :: ("</p>".data ++ t)) 1 =
      some (himgRun u alt ++ '>' :: "</p>".data, t) := by
  have ha2 : ∀ c ∈ " alt=\"".data ++
      (alt ++ "\" style=\"max-width: 100%;\"".data), ¬ c = '>' := by
    have l2 : ∀ x ∈ " alt=\"".data, ¬ x = '>' := by decide
    have l3 : ∀ x ∈ "\" style=\"max-width: 100%;\"".data, ¬ x = '>' := by
      decide
    intro c hc
    simp only [List.mem_append] at hc
    rcases hc with h | h | h
    · exact l2 c h
    · exact halt c h
    · exact l3 c h
  have hshape : himgRun u alt ++ '>' :: ("</p>".data ++ t) =
      ' ' :: ("src=\"".data ++ ("data:image".data ++ (u ++ '"' ::
        ((" alt=\"".data ++ (alt ++ "\" style=\"max-width: 100%;\"".data)) ++
          '>' :: ("</p>".data ++ t))))) := by
    simp [himgRun]
  unfold htmlCheckSplit
  rw [hshape]
  simp only [List.drop_succ_cons, List.drop_zero, List.take_succ_cons,
    List.take_zero]
  rw [afterLit_self_append]
  dsimp only
  rw [htmlAfterSrc_exact _ _ _ hu ha2]
  dsimp only
  simp [himgRun]

/-- Descending backtracking: if every larger split fails and `k` succeeds,
the search returns the `k`-candidate. -/
theorem htmlTrySplit_down (r3 : List Char) (k : Nat)
    (res : List Char × List Char) (hk : htmlCheckSplit r3 k = some res) :
    ∀ K, k ≤ K → (∀ j, k < j → j ≤ K → htmlCheckSplit r3 j = none) →
      htmlTrySplit r3 K = some res := by
  intro K
  induction K with
  | zero =>
    intro hkK _
    have hk0 : k = 0 := Nat.le_zero.mp hkK
    subst hk0
    simpa [htmlTrySplit] using hk
  | succ K ih =>
    intro hkK hnone
    by_cases hEq : k = K + 1
    · subst hEq
      simp [htmlTrySplit, hk]
    · have hlt : k ≤ K := by omega
      have hnK : htmlCheckSplit r3 (K + 1) = none :=
        hnone (K + 1) (by omega) le_rfl
      simp only [htmlTrySplit, hnK]
      exact ih hlt fun j hj hjK => hnone j hj (by omega)

/-- The HTML-image matcher consumes a well-formed canonical centered image
fragment exactly: the attribute runs stop at the tag ends, and greedy
backtracking of `[^>]*` lands on the real `src="`. -/
theorem tryHtml_exact (u alt t : List Char)
    (hu : ∀ c ∈ u, ¬ c = '"' ∧ ¬ c = '>')
    (halt : ∀ c ∈ alt, ¬ c = '"' ∧ ¬ c = '>')
    (hns : containsSub "src=\"".data ((himgRun u alt).drop 2 ++ ['>']) =
      false) :
    tryHtml (renderHimg u alt ++ t) = some (renderHimg u alt, t) := by
  have hshape : renderHimg u alt ++ t =
      "<p".data ++ (" align=\"center\"".data ++ '>' :: ("<img".data ++
        (himgRun u alt ++ '>' :: ("</p>".data ++ t)))) := by
    simp [renderHimg, himgRun]
  have hattrs : (" align=\"center\"".data ++ '>' :: ("<img".data ++
      (himgRun u alt ++ '>' :: ("</p>".data ++ t)))).takeWhile
        (fun c => !(c = '>')) = " align=\"center\"".data :=
    takeWhile_sentinel _ _ '>' _ (by decide) (by decide)
  have hrun : (himgRun u alt ++ '>' :: ("</p>".data ++ t)).takeWhile
      (fun c => !(c = '>')) = himgRun u alt :=
    takeWhile_sentinel _ _ '>' _
      (fun c hc => by
        simp [himgRun_no_gt u alt (fun x hx => (hu x hx).2)
          (fun x hx => (halt x hx).2) c hc])
      (by decide)
  have hle : 1 ≤ (himgRun u alt).length := by
    simp [himgRun]
  rw [hshape]
  unfold tryHtml
  rw [afterLit_self_append]
  dsimp only
  rw [hattrs, List.drop_left]
  show (match afterLit "<img".data ("<img".data ++
      (himgRun u alt ++ '>' :: ("</p>".data ++ t))) with
    | none => none
    | some r3 =>
      (match htmlTrySplit r3 (r3.takeWhile (fun c => !(c = '>'))).length with
       | none => none
       | some (tailPart, rest) =>
         some ("<p".data ++ " align=\"center\"".data ++ '>' :: "<img".data ++
           tailPart, rest))) = some (renderHimg u alt, t)
  rw [afterLit_self_append]
  dsimp only
  rw [hrun]
  rw [htmlTrySplit_down _ 1 _
    (checkSplit_one u alt t (fun x hx => (hu x hx).1)
      (fun x hx => (halt x hx).2))
    _ hle
    (fun j hj hjL => checkSplit_none_of_ge2 u alt t hns j (by omega) hjL)]
  dsimp only
  simp [renderHimg, himgRun]

/-- Scanning over a chunk whose characters all fail the matcher copies the
chunk verbatim, consuming exactly its length of fuel. -/
theorem replAll_inert_chunk {σ : Type}
    (tm : List Char → Option (List Char × List Char))
    (repl : List Char → σ → List Char × σ) :
    ∀ a : List Char, (∀ c ∈ a, ∀ t2, tm (c :: t2) = none) →
      ∀ f s (st : σ),
        replAll tm repl (a.length + f) (a ++ s) st =
          (a ++ (replAll tm repl f s st).1, (replAll tm repl f s st).2) := by
  intro a
  induction a with
  | nil => intro _ f s st; simp
  | cons c a2 ih =>
    intro h f s st
    have hlen : (c :: a2).length + f = (a2.length + f) + 1 := by
      simp [List.length_cons]
      omega
    rw [hlen]
    show replAll tm repl ((a2.length + f) + 1) (c :: (a2 ++ s)) st = _
    simp only [replAll]
    rw [h c (by simp) (a2 ++ s)]
    dsimp only
    rw [ih (fun x hx t2 => h x (by simp [hx]) t2) f s st]
    simp

/-- Scanning at a chunk the matcher consumes exactly appends the callback
replacement and resumes after the chunk. -/
theorem replAll_match_chunk {σ : Type}
    (tm : List Char → Option (List Char × List Char))
    (repl : List Char → σ → List Char × σ) (m s : List Char) (st : σ)
    (hne : ¬ m = []) (hmatch : tm (m ++ s) = some (m, s)) (f : Nat) :
    replAll tm repl (m.length + f) (m ++ s) st =
      ((repl m st).1 ++
        (replAll tm repl ((m.length - 1) + f) s (repl m st).2).1,
       (replAll tm repl ((m.length - 1) + f) s (repl m st).2).2) := by
  cases m with
  | nil => exact absurd rfl hne
  | cons c m2 =>
    have hlen : (c :: m2).length + f = (m2.length + f) + 1 := by
      simp [List.length_cons]
      omega
    rw [hlen]
    rw [List.cons_append] at hmatch ⊢
    show replAll tm repl ((m2.length + f) + 1) (c :: (m2 ++ s)) st = _
    simp only [replAll]
    rw [hmatch]
    simp [List.length_cons]

/-- Characters of inert plain text are none of the three scan triggers. -/
theorem plainCharOK_spec (s : List Char) (h : s.all plainCharOK = true) :
    ∀ c ∈ s, ¬ c = '<' ∧ ¬ c = '!' ∧ ¬ c = '[' := by
  intro c hc
  have := (List.all_eq_true.mp h) c hc
  simp only [plainCharOK, Bool.not_eq_eq_eq_not, Bool.not_true,
    Bool.or_eq_false_iff, decide_eq_false_iff_not] at this
  exact ⟨this.1.1, this.1.2, this.2⟩

/-- A Markdown image contains no `<` when its groups do not. -/
theorem renderMimg_no_lt (alt u : List Char) (ha : ∀ c ∈ alt, ¬ c = '<')
    (hb : ∀ c ∈ u, ¬ c = '<') : ∀ c ∈ renderMimg alt u, ¬ c = '<' := by
  intro c hc hlt
  subst hlt
  simp [renderMimg] at hc
  rcases hc with h | h
  · exact ha _ h rfl
  · exact hb _ h rfl

/-- A placeholder token contains no `!` when the id suffix satisfies the
supply conditions. -/
theorem tok_no_bang (sup : Nat → List Char) (n : Nat)
    (hsup : ∀ c ∈ sup n, supCharOK c = true) :
    ∀ c ∈ renderCSeg sup (CSeg.tok n), ¬ c = '!' := by
  intro c hc hbang
  subst hbang
  simp [renderCSeg, phPre] at hc
  have := hsup _ hc
  simp [supCharOK] at this

/-- The HTML pass over a well-formed document: each centered-HTML image
becomes the next token and is stored; everything else is copied. -/
theorem p1_scan (sup : Nat → List Char) :
    ∀ segs : List Seg, docOK segs = true → ∀ f n (store : Store),
      replAll tryHtml (collapseRepl sup) ((renderDoc segs).length + f)
        (renderDoc segs) (store, n) =
      (renderCDoc sup (p1 sup segs n).1,
        (store ++ (p1 sup segs n).2.1, (p1 sup segs n).2.2)) := by
  intro segs
  induction segs with
  | nil =>
    intro _ f n store
    cases f <;> simp [replAll, renderDoc, renderCDoc, p1]
  | cons seg rest ih =>
    intro hdoc f n store
    have hs1 : segOK seg = true := by
      have h := hdoc
      simp only [docOK, List.all_cons, Bool.and_eq_true] at h
      exact h.1
    have hs2 : docOK rest = true := by
      have h := hdoc
      simp only [docOK, List.all_cons, Bool.and_eq_true] at h
      simpa [docOK] using h.2
    cases seg with
    | plain s =>
      have hinert : ∀ c ∈ s, ∀ t2, tryHtml (c :: t2) = none := fun c hc t2 =>
        tryHtml_trigger c t2
          ((plainCharOK_spec s (by simpa [segOK] using hs1) c hc).1)
      have hr : renderDoc (Seg.plain s :: rest) = s ++ renderDoc rest := by
        simp [renderDoc, renderSeg]
      rw [hr]
      have hlen : (s ++ renderDoc rest).length + f =
          s.length + ((renderDoc rest).length + f) := by
        simp [List.length_append]
        omega
      rw [hlen, replAll_inert_chunk _ _ s hinert _ _ _, ih hs2 f n store]
      simp [p1, renderCDoc, renderCSeg]
    | mimg alt u =>
      have h1 := hs1
      simp only [segOK, Bool.and_eq_true, List.all_eq_true] at h1
      have hprops : (∀ c ∈ alt, ¬ c = '<') ∧ ∀ c ∈ u, ¬ c = '<' := by
        constructor
        · intro c hc
          have := h1.1.1 c hc
          simp only [Bool.not_eq_eq_eq_not, Bool.not_true,
            Bool.or_eq_false_iff, decide_eq_false_iff_not] at this
          exact this.2
        · intro c hc
          have := h1.1.2 c hc
          simp only [Bool.not_eq_eq_eq_not, Bool.not_true,
            Bool.or_eq_false_iff, decide_eq_false_iff_not] at this
          exact this.2
      have hinert : ∀ c ∈ renderMimg alt u, ∀ t2, tryHtml (c :: t2) = none :=
        fun c hc t2 => tryHtml_trigger c t2
          (renderMimg_no_lt alt u hprops.1 hprops.2 c hc)
      have hr : renderDoc (Seg.mimg alt u :: rest) =
          renderMimg alt u ++ renderDoc rest := by
        simp [renderDoc, renderSeg]
      rw [hr]
      have hlen : (renderMimg alt u ++ renderDoc rest).length + f =
          (renderMimg alt u).length + ((renderDoc rest).length + f) := by
        simp [List.length_append]
        omega
      rw [hlen, replAll_inert_chunk _ _ _ hinert _ _ _, ih hs2 f n store]
      simp [p1, renderCDoc, renderCSeg]
    | himg u alt =>
      have h1 := hs1
      simp only [segOK, Bool.and_eq_true, List.all_eq_true,
        Bool.not_eq_eq_eq_not, Bool.not_true] at h1
      have hu : ∀ c ∈ u, ¬ c = '"' ∧ ¬ c = '>' := by
        intro c hc
        have := h1.1.1 c hc
        simp only [Bool.not_eq_eq_eq_not, Bool.not_true,
          Bool.or_eq_false_iff, decide_eq_false_iff_not] at this
        exact this
      have halt : ∀ c ∈ alt, ¬ c = '"' ∧ ¬ c = '>' := by
        intro c hc
        have := h1.1.2 c hc
        simp only [Bool.not_eq_eq_eq_not, Bool.not_true,
          Bool.or_eq_false_iff, decide_eq_false_iff_not] at this
        exact this
      have hmatch : tryHtml (renderHimg u alt ++ renderDoc rest) =
          some (renderHimg u alt, renderDoc rest) :=
        tryHtml_exact u alt _ hu halt h1.2
      have hne : ¬ renderHimg u alt = [] := by simp [renderHimg]
      have hr : renderDoc (Seg.himg u alt :: rest) =
          renderHimg u alt ++ renderDoc rest := by
        simp [renderDoc, renderSeg]
      rw [hr]
      have hlen : (renderHimg u alt ++ renderDoc rest).length + f =
          (renderHimg u alt).length + ((renderDoc rest).length + f) := by
        simp [List.length_append]
        omega
      rw [hlen, replAll_match_chunk _ _ _ _ _ hne hmatch _]
      have hcr : collapseRepl sup (renderHimg u alt) (store, n) =
          (phPre ++ ("img-".data ++ sup n) ++ [']'],
           (store ++ [("img-".data ++ sup n, renderHimg u alt)], n + 1)) :=
        rfl
      rw [hcr]
      have hlen2 : ((renderHimg u alt).length - 1) +
          ((renderDoc rest).length + f) =
          (renderDoc rest).length + (((renderHimg u alt).length - 1) + f) := by
        omega
      rw [hlen2, ih hs2 _ _ _]
      simp [p1, renderCDoc, renderCSeg, List.append_assoc]

/-- The Markdown pass over a collapsed document: each Markdown image
becomes the next token and is stored; plain text and existing tokens are
copied. -/
theorem p2_scan (sup : Nat → List Char)
    (hsupc : ∀ k, (sup k).all supCharOK = true) :
    ∀ l : List CSeg, cdocOK l = true → ∀ f n (store : Store),
      replAll tryMd (collapseRepl sup) ((renderCDoc sup l).length + f)
        (renderCDoc sup l) (store, n) =
      (renderCDoc sup (p2 sup l n).1,
        (store ++ (p2 sup l n).2.1, (p2 sup l n).2.2)) := by
  intro l
  induction l with
  | nil =>
    intro _ f n store
    cases f <;> simp [replAll, renderCDoc, p2]
  | cons seg rest ih =>
    intro hdoc f n store
    have hs1 : csegOK seg = true := by
      have h := hdoc
      simp only [cdocOK, List.all_cons, Bool.and_eq_true] at h
      exact h.1
    have hs2 : cdocOK rest = true := by
      have h := hdoc
      simp only [cdocOK, List.all_cons, Bool.and_eq_true] at h
      simpa [cdocOK] using h.2
    have hcons : ∀ cs : CSeg, renderCDoc sup (cs :: rest) =
        renderCSeg sup cs ++ renderCDoc sup rest := by
      intro cs
      simp [renderCDoc]
    cases seg with
    | plain s =>
      have hinert : ∀ c ∈ s, ∀ t2, tryMd (c :: t2) = none := fun c hc t2 =>
        tryMd_trigger c t2
          ((plainCharOK_spec s (by simpa [csegOK] using hs1) c hc).2.1)
      rw [hcons (CSeg.plain s)]
      have hlen : ((renderCSeg sup (CSeg.plain s)) ++
          renderCDoc sup rest).length + f =
          (renderCSeg sup (CSeg.plain s)).length +
            ((renderCDoc sup rest).length + f) := by
        simp [List.length_append]
        omega
      rw [hlen, replAll_inert_chunk _ _ _
        (fun c hc t2 => hinert c (by simpa [renderCSeg] using hc) t2) _ _ _,
        ih hs2 f n store]
      simp [p2, renderCDoc, renderCSeg]
    | tok k =>
      have hinert : ∀ c ∈ renderCSeg sup (CSeg.tok k), ∀ t2,
          tryMd (c :: t2) = none := fun c hc t2 =>
        tryMd_trigger c t2 (tok_no_bang sup k
          (fun x hx => List.all_eq_true.mp (hsupc k) x hx) c hc)
      rw [hcons (CSeg.tok k)]
      have hlen : ((renderCSeg sup (CSeg.tok k)) ++
          renderCDoc sup rest).length + f =
          (renderCSeg sup (CSeg.tok k)).length +
            ((renderCDoc sup rest).length + f) := by
        simp [List.length_append]
        omega
      rw [hlen, replAll_inert_chunk _ _ _ hinert _ _ _, ih hs2 f n store]
      simp [p2, renderCDoc, renderCSeg]
    | mimg alt u =>
      have h1 := hs1
      simp only [csegOK, Bool.and_eq_true, List.all_eq_true] at h1
      have halt2 : ∀ c ∈ alt, ¬ c = ']' := by
        intro c hc
        have := h1.1.1 c hc
        simp only [Bool.not_eq_eq_eq_not, Bool.not_true,
          Bool.or_eq_false_iff, decide_eq_false_iff_not] at this
        exact this.1
      have hu2 : ∀ c ∈ u, ¬ c = ')' := by
        intro c hc
        have := h1.1.2 c hc
        simp only [Bool.not_eq_eq_eq_not, Bool.not_true,
          Bool.or_eq_false_iff, decide_eq_false_iff_not] at this
        exact this.1
      have hune : ¬ u = [] := by
        have h2 := h1.2
        cases u with
        | nil => simp [List.isEmpty] at h2
        | cons a b => intro hh; cases hh
      have hmatch : tryMd (renderMimg alt u ++ renderCDoc sup rest) =
          some (renderMimg alt u, renderCDoc sup rest) :=
        tryMd_exact alt u _ halt2 hu2 hune
      have hne : ¬ renderMimg alt u = [] := by simp [renderMimg]
      rw [hcons (CSeg.mimg alt u)]
      have hlen : ((renderCSeg sup (CSeg.mimg alt u)) ++
          renderCDoc sup rest).length + f =
          (renderMimg alt u).length +
            ((renderCDoc sup rest).length + f) := by
        simp [List.length_append, renderCSeg]
        omega
      rw [hlen]
      rw [show renderCSeg sup (CSeg.mimg alt u) = renderMimg alt u from rfl]
      rw [replAll_match_chunk _ _ _ _ _ hne hmatch _]
      have hcr : collapseRepl sup (renderMimg alt u) (store, n) =
          (phPre ++ ("img-".data ++ sup n) ++ [']'],
           (store ++ [("img-".data ++ sup n, renderMimg alt u)], n + 1)) :=
        rfl
      rw [hcr]
      have hlen2 : ((renderMimg alt u).length - 1) +
          ((renderCDoc sup rest).length + f) =
          (renderCDoc sup rest).length +
            (((renderMimg alt u).length - 1) + f) := by
        omega
      rw [hlen2, ih hs2 _ _ _]
      simp [p2, renderCDoc, renderCSeg, List.append_assoc]

/-- The matched placeholder token recovers its id group. -/
theorem tok_id_of_match (id : List Char) :
    (((phPre ++ id ++ [']']).drop phPre.length).dropLast) = id := by
  rw [List.append_assoc, List.drop_left]
  simp

/-- The restore pass over a well-formed restore-phase document acts as the
per-token replacement map. -/
theorem restore_scan_aux (store : Store) :
    ∀ rl : List RSeg, rdocOK rl = true → ∀ f (st : Unit),
      replAll tryPH
        (fun m _ =>
          (match lookupStore store ((m.drop phPre.length).dropLast) with
           | some orig => if orig = [] then m else orig
           | none => m, ()))
        ((renderRDoc rl).length + f) (renderRDoc rl) st =
      (renderRDoc (rl.map (mapRestore store)), ()) := by
  intro rl
  induction rl with
  | nil =>
    intro _ f st
    cases st
    cases f <;> simp [replAll, renderRDoc]
  | cons seg rest ih =>
    intro hdoc f st
    have hs1 : rsegOK seg = true := by
      have h := hdoc
      simp only [rdocOK, List.all_cons, Bool.and_eq_true] at h
      exact h.1
    have hs2 : rdocOK rest = true := by
      have h := hdoc
      simp only [rdocOK, List.all_cons, Bool.and_eq_true] at h
      simpa [rdocOK] using h.2
    have hcons : ∀ rs : RSeg, renderRDoc (rs :: rest) =
        renderRSeg rs ++ renderRDoc rest := by
      intro rs
      simp [renderRDoc]
    cases seg with
    | plain s =>
      have hinert : ∀ c ∈ s, ∀ t2, tryPH (c :: t2) = none := by
        intro c hc t2
        refine tryPH_trigger c t2 ?_
        have h1 := hs1
        simp only [rsegOK, List.all_eq_true] at h1
        have := h1 c hc
        simpa using this
      rw [hcons (RSeg.plain s)]
      have hlen : ((renderRSeg (RSeg.plain s)) ++ renderRDoc rest).length + f =
          s.length + ((renderRDoc rest).length + f) := by
        simp [List.length_append, renderRSeg]
        omega
      rw [hlen]
      rw [show renderRSeg (RSeg.plain s) = s from rfl]
      rw [replAll_inert_chunk _ _ s hinert _ _ _, ih hs2 f st]
      simp [renderRDoc, mapRestore, renderRSeg]
    | rtok id =>
      have h1 := hs1
      simp only [rsegOK, Bool.and_eq_true, List.all_eq_true] at h1
      have hne : ¬ id = [] := by
        have h2 := h1.1
        cases id with
        | nil => simp [List.isEmpty] at h2
        | cons a b => intro hh; cases hh
      have hid : ∀ c ∈ id, ¬ c = ']' := by
        intro c hc
        have := h1.2 c hc
        simp only [Bool.not_eq_eq_eq_not, Bool.not_true,
          Bool.or_eq_false_iff, decide_eq_false_iff_not] at this
        exact this.1
      have hmatch : tryPH ((phPre ++ id ++ [']']) ++ renderRDoc rest) =
          some (phPre ++ id ++ [']'], renderRDoc rest) := by
        have := tryPH_exact id (renderRDoc rest) hne hid
        rw [List.append_assoc (phPre ++ id) [']'] (renderRDoc rest)]
        simpa using this
      have hmne : ¬ (phPre ++ id ++ [']']) = [] := by simp [phPre]
      rw [hcons (RSeg.rtok id)]
      have hlen : ((renderRSeg (RSeg.rtok id)) ++ renderRDoc rest).length + f =
          (phPre ++ id ++ [']']).length + ((renderRDoc rest).length + f) := by
        simp [List.length_append, renderRSeg]
        omega
      rw [hlen]
      rw [show renderRSeg (RSeg.rtok id) = phPre ++ id ++ [']'] from rfl]
      rw [replAll_match_chunk _ _ _ _ _ hmne hmatch _]
      have hlen2 : (phPre ++ id ++ [']']).length - 1 +
          ((renderRDoc rest).length + f) =
          (renderRDoc rest).length +
            ((phPre ++ id ++ [']']).length - 1 + f) := by
        omega
      rw [hlen2]
      rw [ih hs2 _ _]
      rw [tok_id_of_match id]
      have hout : (match lookupStore store id with
          | some orig => if orig = [] then phPre ++ id ++ [']'] else orig
          | none => phPre ++ id ++ [']']) =
          renderRSeg (mapRestore store (RSeg.rtok id)) := by
        cases hl : lookupStore store id with
        | none => simp [mapRestore, hl, renderRSeg]
        | some orig =>
          by_cases horig : orig = []
          · simp [mapRestore, hl, horig, renderRSeg]
          · simp [mapRestore, hl, horig, renderRSeg]
      simp only [hout]
      simp [renderRDoc]

/-- `restoreImages` on a well-formed restore-phase document is exactly the
per-token replacement map. -/
theorem restore_scan (store : Store) (rl : List RSeg)
    (hdoc : rdocOK rl = true) :
    restoreImages store (renderRDoc rl) =
      renderRDoc (rl.map (mapRestore store)) := by
  unfold restoreImages replAllF
  rw [show (renderRDoc rl).length = (renderRDoc rl).length + 0 from rfl]
  rw [restore_scan_aux store rl hdoc 0 ()]

/-- Store lookup skips a head entry with a different id. -/
theorem lookupStore_cons_ne (e : List Char × List Char) (t : Store)
    (id : List Char) (he : ¬ e.1 = id) :
    lookupStore (e :: t) id = lookupStore t id := by
  simp [lookupStore, List.find?_cons, he]

/-- Store lookup at a head entry with the matching id. -/
theorem lookupStore_cons_eq (e : List Char × List Char) (t : Store)
    (id : List Char) (he : e.1 = id) :
    lookupStore (e :: t) id = some e.2 := by
  simp [lookupStore, List.find?_cons, he]

/-- Store lookup ignores a later half when the first half hits. -/
theorem lookupStore_append_left (s1 s2 : Store) (id o : List Char)
    (h : lookupStore s1 id = some o) :
    lookupStore (s1 ++ s2) id = some o := by
  induction s1 with
  | nil => simp [lookupStore] at h
  | cons e t ih =>
    by_cases he : e.1 = id
    · rw [lookupStore_cons_eq e t id he] at h
      rw [List.cons_append, lookupStore_cons_eq e (t ++ s2) id he]
      exact h
    · rw [lookupStore_cons_ne e t id he] at h
      rw [List.cons_append, lookupStore_cons_ne e (t ++ s2) id he]
      exact ih h

/-- Store lookup falls through a missing first half. -/
theorem lookupStore_append_right (s1 s2 : Store) (id : List Char)
    (h : lookupStore s1 id = none) :
    lookupStore (s1 ++ s2) id = lookupStore s2 id := by
  induction s1 with
  | nil => simp
  | cons e t ih =>
    by_cases he : e.1 = id
    · rw [lookupStore_cons_eq e t id he] at h
      cases h
    · rw [lookupStore_cons_ne e t id he] at h
      rw [List.cons_append, lookupStore_cons_ne e (t ++ s2) id he]
      exact ih h

/-- Identical generated ids come from identical counters. -/
theorem imgId_inj (sup : Nat → List Char) (hinj : Function.Injective sup)
    (a b : Nat) (h : "img-".data ++ sup a = "img-".data ++ sup b) : a = b :=
  hinj (List.append_cancel_left h)

/-- The HTML pass never decreases the counter. -/
theorem p1_counter_le (sup : Nat → List Char) :
    ∀ (segs : List Seg) (n : Nat), n ≤ (p1 sup segs n).2.2 := by
  intro segs
  induction segs with
  | nil => intro n; simp [p1]
  | cons seg rest ih =>
    intro n
    cases seg with
    | plain s => simpa [p1] using ih n
    | mimg alt u => simpa [p1] using ih n
    | himg u alt =>
      have := ih (n + 1)
      simp only [p1]
      omega

/-- Every id the HTML pass stores belongs to a counter in the pass's
range. -/
theorem p1_store_mem (sup : Nat → List Char) :
    ∀ (segs : List Seg) (n : Nat) (e : List Char × List Char),
      e ∈ (p1 sup segs n).2.1 →
      ∃ j, n ≤ j ∧ j < (p1 sup segs n).2.2 ∧
        e.1 = "img-".data ++ sup j := by
  intro segs
  induction segs with
  | nil => intro n e he; simp [p1] at he
  | cons seg rest ih =>
    intro n e he
    cases seg with
    | plain s =>
      simp only [p1] at he ⊢
      obtain ⟨j, h1, h2, h3⟩ := ih n e he
      exact ⟨j, h1, h2, h3⟩
    | mimg alt u =>
      simp only [p1] at he ⊢
      obtain ⟨j, h1, h2, h3⟩ := ih n e he
      exact ⟨j, h1, h2, h3⟩
    | himg u alt =>
      simp only [p1, List.mem_cons] at he ⊢
      rcases he with he | he
      · refine ⟨n, le_rfl, ?_, by rw [he]⟩
        have : n + 1 ≤ (p1 sup rest (n + 1)).2.2 := p1_counter_le sup rest (n + 1)
        omega
      · obtain ⟨j, h1, h2, h3⟩ := ih (n + 1) e he
        exact ⟨j, by omega, h2, h3⟩

/-- Store lookup misses when no entry has the id. -/
theorem lookupStore_eq_none (s : Store) (id : List Char)
    (h : ∀ e ∈ s, ¬ e.1 = id) : lookupStore s id = none := by
  induction s with
  | nil => rfl
  | cons e t ih =>
    rw [lookupStore_cons_ne e t id (h e (by simp))]
    exact ih fun x hx => h x (by simp [hx])

/-- Restore-phase rendering of the collapsed-document view agrees with
collapsed-document rendering. -/
theorem renderRSeg_csegToR (sup : Nat → List Char) (cs : CSeg) :
    renderRSeg (csegToR sup cs) = renderCSeg sup cs := by
  cases cs <;> rfl

/-- Restore-phase rendering of a collapsed document. -/
theorem renderRDoc_csegToR (sup : Nat → List Char) (l : List CSeg) :
    renderRDoc (l.map (csegToR sup)) = renderCDoc sup l := by
  induction l with
  | nil => rfl
  | cons cs t ih =>
    simp only [List.map_cons, renderRDoc, renderCDoc, List.flatten_cons]
      at ih ⊢
    rw [renderRSeg_csegToR, ih]

/-- The HTML pass preserves well-formedness of the document. -/
theorem p1_cdocOK (sup : Nat → List Char) :
    ∀ (segs : List Seg) (n : Nat), docOK segs = true →
      cdocOK (p1 sup segs n).1 = true := by
  intro segs
  induction segs with
  | nil => intro n _; simp [p1, cdocOK]
  | cons seg rest ih =>
    intro n hdoc
    have h := hdoc
    simp only [docOK, List.all_cons, Bool.and_eq_true] at h
    have hs2 : docOK rest = true := by simpa [docOK] using h.2
    cases seg with
    | plain s =>
      simp only [p1, cdocOK, List.all_cons, Bool.and_eq_true]
      exact ⟨by simpa [segOK, csegOK] using h.1, by
        simpa [cdocOK] using ih n hs2⟩
    | mimg alt u =>
      simp only [p1, cdocOK, List.all_cons, Bool.and_eq_true]
      exact ⟨by simpa [segOK, csegOK] using h.1, by
        simpa [cdocOK] using ih n hs2⟩
    | himg u alt =>
      simp only [p1, cdocOK, List.all_cons, Bool.and_eq_true]
      exact ⟨rfl, by simpa [cdocOK] using ih (n + 1) hs2⟩

/-- The collapsed-document view of the Markdown pass's output is a
well-formed restore-phase document. -/
theorem p2_out_rdocOK (sup : Nat → List Char)
    (hsupc : ∀ k, (sup k).all supCharOK = true) :
    ∀ (l : List CSeg) (n : Nat), cdocOK l = true →
      rdocOK ((p2 sup l n).1.map (csegToR sup)) = true := by
  have htokOK : ∀ k, rsegOK (RSeg.rtok ("img-".data ++ sup k)) = true := by
    intro k
    simp only [rsegOK, Bool.and_eq_true, List.all_eq_true]
    constructor
    · simp
    · intro c hc
      simp only [List.mem_append] at hc
      rcases hc with hc | hc
      · have hlit : ∀ x ∈ "img-".data, (!(x = ']' || x = '[')) = true := by
          decide
        exact hlit c hc
      · have := List.all_eq_true.mp (hsupc k) c hc
        revert this
        simp [supCharOK]
        tauto
  intro l
  induction l with
  | nil => intro n _; simp [p2, rdocOK]
  | cons seg rest ih =>
    intro n hdoc
    have h := hdoc
    simp only [cdocOK, List.all_cons, Bool.and_eq_true] at h
    have hs2 : cdocOK rest = true := by simpa [cdocOK] using h.2
    cases seg with
    | plain s =>
      simp only [p2, List.map_cons, rdocOK, List.all_cons, Bool.and_eq_true]
      refine ⟨?_, by simpa [rdocOK] using ih n hs2⟩
      have hp := h.1
      simp only [csegOK, List.all_eq_true] at hp
      simp only [csegToR, rsegOK, List.all_eq_true]
      intro c hc
      have := (plainCharOK_spec s (List.all_eq_true.mpr hp) c hc).2.2
      simpa using this
    | tok k =>
      simp only [p2, List.map_cons, rdocOK, List.all_cons, Bool.and_eq_true]
      exact ⟨htokOK k, by simpa [rdocOK] using ih n hs2⟩
    | mimg alt u =>
      simp only [p2, List.map_cons, rdocOK, List.all_cons, Bool.and_eq_true]
      exact ⟨htokOK n, by simpa [rdocOK] using ih (n + 1) hs2⟩

/-- Resolving the HTML pass's output through any store that agrees with the
pass's own store on its generated ids recovers the original document. -/
theorem p1_resolve (sup : Nat → List Char) (hinj : Function.Injective sup)
    (S : Store) :
    ∀ (segs : List Seg) (n : Nat), docOK segs = true →
      (∀ k o, n ≤ k →
        lookupStore (p1 sup segs n).2.1 ("img-".data ++ sup k) = some o →
        lookupStore S ("img-".data ++ sup k) = some o) →
      renderRDoc (((p1 sup segs n).1.map (csegToR sup)).map (mapRestore S)) =
        renderDoc segs := by
  have hcons : ∀ (rs : RSeg) (t : List RSeg), renderRDoc (rs :: t) =
      renderRSeg rs ++ renderRDoc t := by
    intro rs t
    simp [renderRDoc]
  intro segs
  induction segs with
  | nil => intro n _ _; simp [p1, renderRDoc, renderDoc]
  | cons seg rest ih =>
    intro n hdoc hS
    have h := hdoc
    simp only [docOK, List.all_cons, Bool.and_eq_true] at h
    have hs2 : docOK rest = true := by simpa [docOK] using h.2
    cases seg with
    | plain s =>
      simp only [p1, List.map_cons]
      rw [hcons]
      rw [ih n hs2 (fun k o hk hl => hS k o hk (by simpa [p1] using hl))]
      simp [csegToR, mapRestore, renderRSeg, renderDoc, renderSeg]
    | mimg alt u =>
      simp only [p1, List.map_cons]
      rw [hcons]
      rw [ih n hs2 (fun k o hk hl => hS k o hk (by simpa [p1] using hl))]
      simp [csegToR, mapRestore, renderRSeg, renderDoc, renderSeg]
    | himg u alt =>
      have hM : lookupStore S ("img-".data ++ sup n) =
          some (renderHimg u alt) := by
        apply hS n _ le_rfl
        simp only [p1]
        exact lookupStore_cons_eq _ _ _ rfl
      have hMne : ¬ renderHimg u alt = [] := by simp [renderHimg]
      simp only [p1, List.map_cons]
      rw [hcons]
      rw [ih (n + 1) hs2 (fun k o hk hl => by
        refine hS k o (by omega) ?_
        simp only [p1]
        rw [lookupStore_cons_ne _ _ _ (fun hh =>
          by have := imgId_inj sup hinj n k hh; omega)]
        exact hl)]
      have hhead : renderRSeg (mapRestore S (csegToR sup (CSeg.tok n))) =
          renderHimg u alt := by
        simp only [csegToR, mapRestore]
        rw [hM]
        simp [hMne, renderRSeg]
      rw [hhead]
      simp [renderDoc, renderSeg]

/-- Resolving the Markdown pass's output through any store that agrees with
the pass's own store on its generated ids is resolving its input. -/
theorem p2_resolve (sup : Nat → List Char) (hinj : Function.Injective sup)
    (S : Store) :
    ∀ (l : List CSeg) (n : Nat),
      (∀ k o, n ≤ k →
        lookupStore (p2 sup l n).2.1 ("img-".data ++ sup k) = some o →
        lookupStore S ("img-".data ++ sup k) = some o) →
      renderRDoc (((p2 sup l n).1.map (csegToR sup)).map (mapRestore S)) =
        renderRDoc ((l.map (csegToR sup)).map (mapRestore S)) := by
  have hcons : ∀ (rs : RSeg) (t : List RSeg), renderRDoc (rs :: t) =
      renderRSeg rs ++ renderRDoc t := by
    intro rs t
    simp [renderRDoc]
  intro l
  induction l with
  | nil => intro n _; simp [p2]
  | cons seg rest ih =>
    intro n hS
    cases seg with
    | plain s =>
      simp only [p2, List.map_cons]
      rw [hcons, hcons]
      rw [ih n (fun k o hk hl => hS k o hk (by simpa [p2] using hl))]
    | tok j =>
      simp only [p2, List.map_cons]
      rw [hcons, hcons]
      rw [ih n (fun k o hk hl => hS k o hk (by simpa [p2] using hl))]
    | mimg alt u =>
      have hM : lookupStore S ("img-".data ++ sup n) =
          some (renderMimg alt u) := by
        apply hS n _ le_rfl
        simp only [p2]
        exact lookupStore_cons_eq _ _ _ rfl
      have hMne : ¬ renderMimg alt u = [] := by simp [renderMimg]
      simp only [p2, List.map_cons]
      rw [hcons, hcons]
      rw [ih (n + 1) (fun k o hk hl => by
        refine hS k o (by omega) ?_
        simp only [p2]
        rw [lookupStore_cons_ne _ _ _ (fun hh =>
          by have := imgId_inj sup hinj n k hh; omega)]
        exact hl)]
      have hhead : renderRSeg (mapRestore S (csegToR sup (CSeg.tok n))) =
          renderMimg alt u := by
        simp only [csegToR, mapRestore]
        rw [hM]
        simp [hMne, renderRSeg]
      rw [hhead]
      simp [csegToR, mapRestore, renderRSeg]

/-- Collapsing a document with no embedded images leaves its text
unchanged. -/
theorem collapse_plain_render (sup : Nat → List Char) :
    ∀ segs : List Seg, segs.all isPlainSeg = true → ∀ n m,
      renderCDoc sup (p2 sup (p1 sup segs n).1 m).1 = renderDoc segs := by
  intro segs
  induction segs with
  | nil => intro _ n m; simp [p1, p2, renderCDoc, renderDoc]
  | cons seg rest ih =>
    intro hall n m
    simp only [List.all_cons, Bool.and_eq_true] at hall
    cases seg with
    | plain s =>
      simp only [p1, p2]
      have := ih hall.2 n m
      simp only [renderCDoc, renderDoc, List.map_cons, List.flatten_cons]
        at this ⊢
      rw [this]
      rfl
    | mimg alt u => simp [isPlainSeg] at hall
    | himg u alt => simp [isPlainSeg] at hall

/-- Collapsing a well-formed document and restoring through the store that
collapse populated recovers the document exactly. -/
theorem collapse_restore_eq (sup : Nat → List Char)
    (hinj : Function.Injective sup)
    (hsupc : ∀ k, (sup k).all supCharOK = true)
    (segs : List Seg) (hdoc : docOK segs = true) :
    restoreImages (collapseImages sup (renderDoc segs) ([], 0)).2.1
      (collapseImages sup (renderDoc segs) ([], 0)).1 = renderDoc segs := by
  have h1 : replAllF tryHtml (collapseRepl sup) (renderDoc segs) ([], 0) =
      (renderCDoc sup (p1 sup segs 0).1,
        ((p1 sup segs 0).2.1, (p1 sup segs 0).2.2)) := by
    unfold replAllF
    rw [show (renderDoc segs).length = (renderDoc segs).length + 0 from rfl]
    rw [p1_scan sup segs hdoc 0 0 []]
    simp
  have hc1 : cdocOK (p1 sup segs 0).1 = true := p1_cdocOK sup segs 0 hdoc
  have h2 : replAllF tryMd (collapseRepl sup)
      (renderCDoc sup (p1 sup segs 0).1)
      ((p1 sup segs 0).2.1, (p1 sup segs 0).2.2) =
      (renderCDoc sup (p2 sup (p1 sup segs 0).1 (p1 sup segs 0).2.2).1,
        ((p1 sup segs 0).2.1 ++
          (p2 sup (p1 sup segs 0).1 (p1 sup segs 0).2.2).2.1,
         (p2 sup (p1 sup segs 0).1 (p1 sup segs 0).2.2).2.2)) := by
    unfold replAllF
    rw [show (renderCDoc sup (p1 sup segs 0).1).length =
      (renderCDoc sup (p1 sup segs 0).1).length + 0 from rfl]
    rw [p2_scan sup hsupc (p1 sup segs 0).1 hc1 0 (p1 sup segs 0).2.2
      (p1 sup segs 0).2.1]
  have hco : collapseImages sup (renderDoc segs) ([], 0) =
      (renderCDoc sup (p2 sup (p1 sup segs 0).1 (p1 sup segs 0).2.2).1,
        ((p1 sup segs 0).2.1 ++
          (p2 sup (p1 sup segs 0).1 (p1 sup segs 0).2.2).2.1,
         (p2 sup (p1 sup segs 0).1 (p1 sup segs 0).2.2).2.2)) := by
    show replAllF tryMd (collapseRepl sup)
        (replAllF tryHtml (collapseRepl sup) (renderDoc segs) ([], 0)).1
        (replAllF tryHtml (collapseRepl sup) (renderDoc segs) ([], 0)).2 = _
    rw [h1]
    exact h2
  rw [hco]
  have hrd : rdocOK ((p2 sup (p1 sup segs 0).1 (p1 sup segs 0).2.2).1.map
      (csegToR sup)) = true :=
    p2_out_rdocOK sup hsupc (p1 sup segs 0).1 (p1 sup segs 0).2.2 hc1
  rw [← renderRDoc_csegToR sup (p2 sup (p1 sup segs 0).1 (p1 sup segs 0).2.2).1]
  rw [restore_scan _ _ hrd]
  rw [p2_resolve sup hinj _ (p1 sup segs 0).1 (p1 sup segs 0).2.2
    (fun k o hk hl => by
      refine Eq.trans (lookupStore_append_right _ _ _ ?_) hl
      refine lookupStore_eq_none _ _ fun e he hne => ?_
      obtain ⟨j, hj1, hj2, hj3⟩ := p1_store_mem sup segs 0 e he
      rw [hj3] at hne
      have := imgId_inj sup hinj j k hne
      omega)]
  exact p1_resolve sup hinj _ segs 0 hdoc
    (fun k o _ hl => lookupStore_append_left _ _ _ _ hl)

/-- The two collapse passes evaluated over a well-formed document: the
collapsed text and the populated store. -/
theorem collapse_eval (sup : Nat → List Char)
    (hsupc : ∀ k, (sup k).all supCharOK = true)
    (segs : List Seg) (hdoc : docOK segs = true) :
    collapseImages sup (renderDoc segs) ([], 0) =
      (renderCDoc sup (p2 sup (p1 sup segs 0).1 (p1 sup segs 0).2.2).1,
        ((p1 sup segs 0).2.1 ++
          (p2 sup (p1 sup segs 0).1 (p1 sup segs 0).2.2).2.1,
         (p2 sup (p1 sup segs 0).1 (p1 sup segs 0).2.2).2.2)) := by
  have h1 : replAllF tryHtml (collapseRepl sup) (renderDoc segs) ([], 0) =
      (renderCDoc sup (p1 sup segs 0).1,
        ((p1 sup segs 0).2.1, (p1 sup segs 0).2.2)) := by
    unfold replAllF
    rw [show (renderDoc segs).length = (renderDoc segs).length + 0 from rfl]
    rw [p1_scan sup segs hdoc 0 0 []]
    simp
  have hc1 : cdocOK (p1 sup segs 0).1 = true := p1_cdocOK sup segs 0 hdoc
  have h2 : replAllF tryMd (collapseRepl sup)
      (renderCDoc sup (p1 sup segs 0).1)
      ((p1 sup segs 0).2.1, (p1 sup segs 0).2.2) =
      (renderCDoc sup (p2 sup (p1 sup segs 0).1 (p1 sup segs 0).2.2).1,
        ((p1 sup segs 0).2.1 ++
          (p2 sup (p1 sup segs 0).1 (p1 sup segs 0).2.2).2.1,
         (p2 sup (p1 sup segs 0).1 (p1 sup segs 0).2.2).2.2)) := by
    unfold replAllF
    rw [show (renderCDoc sup (p1 sup segs 0).1).length =
      (renderCDoc sup (p1 sup segs 0).1).length + 0 from rfl]
    rw [p2_scan sup hsupc (p1 sup segs 0).1 hc1 0 (p1 sup segs 0).2.2
      (p1 sup segs 0).2.1]
  show replAllF tryMd (collapseRepl sup)
      (replAllF tryHtml (collapseRepl sup) (renderDoc segs) ([], 0)).1
      (replAllF tryHtml (collapseRepl sup) (renderDoc segs) ([], 0)).2 = _
  rw [h1]
  exact h2

/-- C2: the counterexample — a document whose single embedded image (a
Markdown data-URL image, matched by the collapse patterns) is preceded by
plain text that happens to spell the placeholder literal `[📷
IMAGE-COLLAPSED-`; collapsing fuses that text with the generated token into
one larger well-formed token whose id is not in the store, so restoring
returns the collapsed text unchanged instead of the original. -/
theorem C2_counterexample :
    ¬ restoreImages
        (collapseImages (fun n => Nat.toDigits 10 n)
          "[📷 IMAGE-COLLAPSED-![a](data:image/z)".data ([], 0)).2.1
        (collapseImages (fun n => Nat.toDigits 10 n)
          "[📷 IMAGE-COLLAPSED-![a](data:image/z)".data ([], 0)).1 =
      "[📷 IMAGE-COLLAPSED-![a](data:image/z)".data := by
  decide

/-- C2 (amended): over documents interleaving inert plain text (free of the
scan-trigger characters `<`, `!`, `[`) with well-formed embedded images of
the two collapse forms, and with distinct generated id suffixes free of
`]`, `!`, `[`, restoring immediately after collapsing returns the document
exactly, using the store populated by that collapse; and collapsing a
document with zero embedded images is the identity on its text. -/
theorem C2_amended (sup : Nat → List Char) (segs : List Seg)
    (hinj : Function.Injective sup)
    (hsupc : ∀ k, (sup k).all supCharOK = true)
    (hdoc : docOK segs = true) :
    restoreImages (collapseImages sup (renderDoc segs) ([], 0)).2.1
        (collapseImages sup (renderDoc segs) ([], 0)).1 = renderDoc segs ∧
      (segs.all isPlainSeg = true →
        (collapseImages sup (renderDoc segs) ([], 0)).1 = renderDoc segs) := by
  constructor
  · exact collapse_restore_eq sup hinj hsupc segs hdoc
  · intro hplain
    rw [collapse_eval sup hsupc segs hdoc]
    exact collapse_plain_render sup segs hplain 0 (p1 sup segs 0).2.2

/-- C2 (amended, witness): the roundtrip at a concrete document holding
plain text, a centered-HTML image and a Markdown image, with the supply of
distinct `x`-runs. -/
theorem C2_amended_witness :
    Function.Injective (fun n => List.replicate n 'x') ∧
    (∀ k, ((fun n => List.replicate n 'x') k).all supCharOK = true) ∧
    docOK [Seg.plain "Hello ".data, Seg.himg "/png;AA".data "pic".data,
      Seg.mimg "alt".data "/jpeg;BB".data] = true ∧
    (restoreImages
        (collapseImages (fun n => List.replicate n 'x')
          (renderDoc [Seg.plain "Hello ".data,
            Seg.himg "/png;AA".data "pic".data,
            Seg.mimg "alt".data "/jpeg;BB".data]) ([], 0)).2.1
        (collapseImages (fun n => List.replicate n 'x')
          (renderDoc [Seg.plain "Hello ".data,
            Seg.himg "/png;AA".data "pic".data,
            Seg.mimg "alt".data "/jpeg;BB".data]) ([], 0)).1 =
      renderDoc [Seg.plain "Hello ".data,
        Seg.himg "/png;AA".data "pic".data,
        Seg.mimg "alt".data "/jpeg;BB".data] ∧
      ([Seg.plain "Hello ".data, Seg.himg "/png;AA".data "pic".data,
        Seg.mimg "alt".data "/jpeg;BB".data].all isPlainSeg = true →
        (collapseImages (fun n => List.replicate n 'x')
          (renderDoc [Seg.plain "Hello ".data,
            Seg.himg "/png;AA".data "pic".data,
            Seg.mimg "alt".data "/jpeg;BB".data]) ([], 0)).1 =
        renderDoc [Seg.plain "Hello ".data,
          Seg.himg "/png;AA".data "pic".data,
          Seg.mimg "alt".data "/jpeg;BB".data])) := by
  refine ⟨fun a b h => by simpa using congrArg List.length h,
    fun k => ?_, by decide, ?_⟩
  · simp only [List.all_eq_true, List.mem_replicate]
    rintro c ⟨-, rfl⟩
    decide
  · exact C2_amended (fun n => List.replicate n 'x') _
      (fun a b h => by simpa using congrArg List.length h)
      (fun k => by
        simp only [List.all_eq_true, List.mem_replicate]
        rintro c ⟨-, rfl⟩
        decide)
      (by decide)

/-- A store hit names an entry of the store. -/
theorem lookupStore_mem (store : Store) (id orig : List Char)
    (h : lookupStore store id = some orig) : ∃ e ∈ store, e.2 = orig := by
  induction store with
  | nil => simp [lookupStore] at h
  | cons e t ih =>
    by_cases he : e.1 = id
    · rw [lookupStore_cons_eq e t id he] at h
      exact ⟨e, by simp, by injection h⟩
    · rw [lookupStore_cons_ne e t id he] at h
      obtain ⟨e2, he2, ho⟩ := ih h
      exact ⟨e2, by simp [he2], ho⟩

/-- C3: the counterexample — with a store whose only original is the plain
text `[` (containing no placeholder token), restoring the two-token-like
text `[📷 IMAGE-COLLAPSED-q]📷 IMAGE-COLLAPSED-q]` once splices the `[`
against the following text into a fresh complete placeholder token, which a
second restore then rewrites again: restore is not idempotent under the
claimed condition. -/
theorem C3_counterexample :
    [("q".data, "[".data)].all (fun p => !hasPH p.2) = true ∧
    ¬ restoreImages [("q".data, "[".data)]
        (restoreImages [("q".data, "[".data)]
          "[📷 IMAGE-COLLAPSED-q]📷 IMAGE-COLLAPSED-q]".data) =
      restoreImages [("q".data, "[".data)]
        "[📷 IMAGE-COLLAPSED-q]📷 IMAGE-COLLAPSED-q]".data := by
  constructor
  · decide
  · decide

/-- C3 (amended): over well-formed restore-phase documents (plain text free
of `[`, tokens with nonempty ids free of `]` and `[`), restore acts
per-token — each token whose id is in the store with a nonempty original
becomes that original, every other token is left unchanged, plain text is
copied — and when additionally every stored original is free of `[`,
restore is idempotent. -/
theorem C3_amended (store : Store) (rl : List RSeg)
    (hdoc : rdocOK rl = true) :
    restoreImages store (renderRDoc rl) =
        renderRDoc (rl.map (mapRestore store)) ∧
      ((∀ e ∈ store, e.2.all (fun c => !(c = '[')) = true) →
        restoreImages store (restoreImages store (renderRDoc rl)) =
          restoreImages store (renderRDoc rl)) := by
  refine ⟨restore_scan store rl hdoc, fun horig => ?_⟩
  have hdoc2 : rdocOK (rl.map (mapRestore store)) = true := by
    simp only [rdocOK, List.all_eq_true] at hdoc ⊢
    intro rs hrs
    simp only [List.mem_map] at hrs
    obtain ⟨s0, hs0, rfl⟩ := hrs
    have h0 := hdoc s0 hs0
    cases s0 with
    | plain t => simpa [mapRestore] using h0
    | rtok id =>
      simp only [mapRestore]
      cases hl : lookupStore store id with
      | none => simpa using h0
      | some orig =>
        by_cases ho : orig = []
        · simpa [ho] using h0
        · obtain ⟨e, he, rfl⟩ := lookupStore_mem store id orig hl
          simp only [ho, if_neg]
          simpa [rsegOK] using horig e he
  have hidem : ∀ s : RSeg, mapRestore store (mapRestore store s) =
      mapRestore store s := by
    intro s
    cases s with
    | plain t => rfl
    | rtok id =>
      simp only [mapRestore]
      cases hl : lookupStore store id with
      | none => simp [mapRestore, hl]
      | some orig =>
        by_cases ho : orig = []
        · simp [mapRestore, hl, ho]
        · simp [mapRestore, ho]
  rw [restore_scan store rl hdoc, restore_scan store _ hdoc2, List.map_map]
  exact congrArg renderRDoc (List.map_congr_left fun a _ => hidem a)

/-- C3 (amended, witness): restore on a concrete document with one stored
token, one missing token and plain text, and its idempotence. -/
theorem C3_amended_witness :
    rdocOK [RSeg.plain "x".data, RSeg.rtok "a".data, RSeg.rtok "b".data] =
        true ∧
    (restoreImages [("a".data, "IMG".data)]
        (renderRDoc [RSeg.plain "x".data, RSeg.rtok "a".data,
          RSeg.rtok "b".data]) =
      renderRDoc ([RSeg.plain "x".data, RSeg.rtok "a".data,
        RSeg.rtok "b".data].map (mapRestore [("a".data, "IMG".data)])) ∧
      ((∀ e ∈ [("a".data, "IMG".data)],
          e.2.all (fun c => !(c = '[')) = true) →
        restoreImages [("a".data, "IMG".data)]
          (restoreImages [("a".data, "IMG".data)]
            (renderRDoc [RSeg.plain "x".data, RSeg.rtok "a".data,
              RSeg.rtok "b".data])) =
        restoreImages [("a".data, "IMG".data)]
          (renderRDoc [RSeg.plain "x".data, RSeg.rtok "a".data,
            RSeg.rtok "b".data]))) :=
  ⟨by decide,
    C3_amended [("a".data, "IMG".data)]
      [RSeg.plain "x".data, RSeg.rtok "a".data, RSeg.rtok "b".data]
      (by decide)⟩

/-- The leak scan passes over text free of `[`. -/
theorem hasLeaked_inert_append (store : Store) :
    ∀ a r : List Char, (∀ c ∈ a, ¬ c = '[') →
      hasLeakedTok store (a ++ r) = hasLeakedTok store r := by
  intro a
  induction a with
  | nil => intro r _; rfl
  | cons c a2 ih =>
    intro r h
    simp only [List.cons_append, hasLeakedTok]
    rw [tryPH_trigger c _ (h c (by simp))]
    simp [ih r fun x hx => h x (by simp [hx])]

/-- The leak scan reports no hit on a well-formed restore-phase document
whose remaining token ids all miss the store. -/
theorem hasLeaked_render_false (store : Store) :
    ∀ rl2 : List RSeg,
      (∀ s ∈ rl2,
        match s with
        | RSeg.plain t => ∀ c ∈ t, ¬ c = '['
        | RSeg.rtok id => ¬ id = [] ∧ (∀ c ∈ id, ¬ c = ']' ∧ ¬ c = '[') ∧
            lookupStore store id = none) →
      hasLeakedTok store (renderRDoc rl2) = false := by
  intro rl2
  induction rl2 with
  | nil => intro _; rfl
  | cons seg rest ih =>
    intro h
    have hrest := ih fun s hs => h s (by simp [hs])
    have hcons : ∀ rs : RSeg, renderRDoc (rs :: rest) =
        renderRSeg rs ++ renderRDoc rest := by
      intro rs
      simp [renderRDoc]
    cases seg with
    | plain t =>
      rw [hcons (RSeg.plain t)]
      rw [show renderRSeg (RSeg.plain t) = t from rfl]
      rw [hasLeaked_inert_append store t _ (h (RSeg.plain t) (by simp))]
      exact hrest
    | rtok id =>
      obtain ⟨hne, hid, hmiss⟩ := h (RSeg.rtok id) (by simp)
      rw [hcons (RSeg.rtok id)]
      rw [show renderRSeg (RSeg.rtok id) = phPre ++ id ++ [']'] from rfl]
      have hshape : (phPre ++ id ++ [']']) ++ renderRDoc rest =
          '[' :: (("📷 IMAGE-COLLAPSED-".data ++ id ++ [']']) ++
            renderRDoc rest) := by
        simp [phPre]
      rw [hshape]
      have hmatch : tryPH ('[' :: (("📷 IMAGE-COLLAPSED-".data ++ id ++
          [']']) ++ renderRDoc rest)) =
          some (phPre ++ id ++ [']'], renderRDoc rest) := by
        have he := tryPH_exact id (renderRDoc rest) hne
          (fun c hc => (hid c hc).1)
        have hsh2 : phPre ++ id ++ ']' :: renderRDoc rest =
            '[' :: (("📷 IMAGE-COLLAPSED-".data ++ id ++ [']']) ++
              renderRDoc rest) := by
          simp [phPre]
        rw [hsh2] at he
        exact he
      rw [show hasLeakedTok store ('[' ::
          (("📷 IMAGE-COLLAPSED-".data ++ id ++ [']']) ++
            renderRDoc rest)) =
        ((match tryPH ('[' :: (("📷 IMAGE-COLLAPSED-".data ++ id ++
            [']']) ++ renderRDoc rest)) with
          | some (m, _) =>
            (lookupStore store ((m.drop phPre.length).dropLast)).isSome
          | none => false) ||
          hasLeakedTok store (("📷 IMAGE-COLLAPSED-".data ++ id ++
            [']']) ++ renderRDoc rest)) from rfl]
      rw [hmatch]
      have hdl : (((phPre ++ id ++ [']']).drop phPre.length).dropLast) = id :=
        tok_id_of_match id
      dsimp only
      simp only [hdl, hmiss, Option.isSome_none, Bool.false_or]
      have hia : ∀ c ∈ "📷 IMAGE-COLLAPSED-".data ++ id ++ [']'],
          ¬ c = '[' := by
        intro c hc
        simp only [List.mem_append, List.mem_singleton] at hc
        rcases hc with (hc | hc) | hc
        · have hlit : ∀ x ∈ "📷 IMAGE-COLLAPSED-".data, ¬ x = '[' := by
            decide
          exact hlit c hc
        · exact (hid c hc).2
        · intro hh; rw [hc] at hh; cases hh
      rw [hasLeaked_inert_append store _ _ hia]
      exact hrest

/-- C10: the counterexample — with images collapsed, editor text holding a
nested placeholder-like prefix around a stored token, and the store
carrying that token's id, the public accessor returns content in which a
placeholder token whose id is in the store still appears: the outer
malformed token is matched (and left, its id unknown), swallowing the
inner token into the output. -/
theorem C10_counterexample :
    hasLeakedTok
      (EditorState.mk "[📷 IMAGE-COLLAPSED-[📷 IMAGE-COLLAPSED-q]".data
        [("q".data, "Z".data)] true).imageStore
      (getContent
        (EditorState.mk "[📷 IMAGE-COLLAPSED-[📷 IMAGE-COLLAPSED-q]".data
          [("q".data, "Z".data)] true)) = true := by
  decide

/-- C10 (amended): with images collapsed the public accessor returns the
restore of the current text through the store; and when the text is a
well-formed restore-phase document and every stored original is nonempty
and free of `[`, no placeholder whose id is present in the store appears
in the returned content. -/
theorem C10_amended (st : EditorState) (rl : List RSeg)
    (hcoll : st.imagesCollapsed = true)
    (htext : st.text = renderRDoc rl)
    (hdoc : rdocOK rl = true)
    (hstore : ∀ e ∈ st.imageStore,
      ¬ e.2 = [] ∧ e.2.all (fun c => !(c = '[')) = true) :
    getContent st = restoreImages st.imageStore st.text ∧
    hasLeakedTok st.imageStore (getContent st) = false := by
  have hget : getContent st = restoreImages st.imageStore st.text := by
    simp [getContent, hcoll]
  refine ⟨hget, ?_⟩
  rw [hget, htext, restore_scan _ _ hdoc]
  apply hasLeaked_render_false
  intro s hs
  simp only [List.mem_map] at hs
  obtain ⟨s0, hs0, rfl⟩ := hs
  have h0 : rsegOK s0 = true := by
    simp only [rdocOK, List.all_eq_true] at hdoc
    exact hdoc s0 hs0
  cases s0 with
  | plain t =>
    simp only [mapRestore]
    intro c hc
    simp only [rsegOK, List.all_eq_true] at h0
    have := h0 c hc
    simpa using this
  | rtok id =>
    simp only [rsegOK, Bool.and_eq_true, List.all_eq_true] at h0
    have hne : ¬ id = [] := by
      have h2 := h0.1
      cases id with
      | nil => simp [List.isEmpty] at h2
      | cons a b => intro hh; cases hh
    have hidp : ∀ c ∈ id, ¬ c = ']' ∧ ¬ c = '[' := by
      intro c hc
      have := h0.2 c hc
      simp only [Bool.not_eq_eq_eq_not, Bool.not_true, Bool.or_eq_false_iff,
        decide_eq_false_iff_not] at this
      exact this
    simp only [mapRestore]
    cases hl : lookupStore st.imageStore id with
    | none => exact ⟨hne, hidp, hl⟩
    | some orig =>
      obtain ⟨e, he, rfl⟩ := lookupStore_mem st.imageStore id orig hl
      have hne2 : ¬ e.2 = [] := (hstore e he).1
      dsimp only
      rw [if_neg hne2]
      intro c hc
      have := List.all_eq_true.mp (hstore e he).2 c hc
      simpa using this

/-- C10 (amended, witness): the accessor at a concrete collapsed state
with one stored and one missing token, and the absence of leaked
placeholders in its output. -/
theorem C10_amended_witness :
    (EditorState.mk (renderRDoc [RSeg.plain "y".data, RSeg.rtok "a".data,
        RSeg.rtok "b".data]) [("a".data, "IMG".data)] true).imagesCollapsed =
        true ∧
    (EditorState.mk (renderRDoc [RSeg.plain "y".data, RSeg.rtok "a".data,
        RSeg.rtok "b".data]) [("a".data, "IMG".data)] true).text =
      renderRDoc [RSeg.plain "y".data, RSeg.rtok "a".data,
        RSeg.rtok "b".data] ∧
    rdocOK [RSeg.plain "y".data, RSeg.rtok "a".data, RSeg.rtok "b".data] =
        true ∧
    (∀ e ∈ (EditorState.mk (renderRDoc [RSeg.plain "y".data,
        RSeg.rtok "a".data, RSeg.rtok "b".data])
        [("a".data, "IMG".data)] true).imageStore,
      ¬ e.2 = [] ∧ e.2.all (fun c => !(c = '[')) = true) ∧
    (getContent (EditorState.mk (renderRDoc [RSeg.plain "y".data,
        RSeg.rtok "a".data, RSeg.rtok "b".data])
        [("a".data, "IMG".data)] true) =
      restoreImages [("a".data, "IMG".data)]
        (renderRDoc [RSeg.plain "y".data, RSeg.rtok "a".data,
          RSeg.rtok "b".data]) ∧
     hasLeakedTok [("a".data, "IMG".data)]
        (getContent (EditorState.mk (renderRDoc [RSeg.plain "y".data,
          RSeg.rtok "a".data, RSeg.rtok "b".data])
          [("a".data, "IMG".data)] true)) = false) :=
  ⟨rfl, rfl, by decide, by decide,
    C10_amended
      (EditorState.mk (renderRDoc [RSeg.plain "y".data, RSeg.rtok "a".data,
        RSeg.rtok "b".data]) [("a".data, "IMG".data)] true)
      [RSeg.plain "y".data, RSeg.rtok "a".data, RSeg.rtok "b".data]
      rfl rfl (by decide) (by decide)⟩
